import Mathlib

/-!
# Verification of the gpk pre-commit check engine

Shallow embedding of `internal/gpk.py`: the path-aware pattern matcher
(`deep_fnmatch`, `pattern_matches`, `possible_matches`,
`pattern_matches_anywhere`), the ancestor-directory walk
(`all_directories` over `posixpath.dirname`), manifest validation and rule
resolution (`validate_precommit`, `apply_precommit`, `find_checks`), the
execution harness decision logic (`RunContext.run_script`,
`ErrorCatcher.__exit__`, `Checks.run`), the child-environment construction,
and the incremental error filter (`Check._diff_errors` on top of Python
`difflib.SequenceMatcher`).

Python strings are modelled as Lean `String`, machine integers as `Int`,
dictionaries as association lists or explicit functions, raised exceptions
as `Option`/sum-like result types.  All definitions are executable.
-/

namespace Gpk

/-! ## Python string helpers

`s.split(c)` for a one-character separator keeps empty fields and returns
`[""]` on the empty string; `c.join(xs)` is `List.intercalate`. -/

/-- `cs.split(c)` on a list of characters, Python semantics:
`''.split('/') == ['']`, `'a//b'.split('/') == ['a','','b']`. -/
def splitOnChar (c : Char) : List Char → List (List Char)
  | [] => [[]]
  | x :: xs =>
    let r := splitOnChar c xs
    if x = c then [] :: r else (x :: r.headD []) :: r.tail

/-- Python `s.split(c)` for a single-character separator. -/
def pySplit (c : Char) (s : String) : List String :=
  (splitOnChar c s.data).map (fun l => ⟨l⟩)

/-- Python `c.join(parts)` for a single-character separator. -/
def pyJoin (c : Char) (parts : List String) : String :=
  ⟨List.intercalate [c] (parts.map String.data)⟩

/-! ## fnmatch.fnmatchcase

`fnmatch.translate` turns a glob into an anchored regex: `*` becomes `.*`
(matching any characters), `?` becomes `.`, `[...]` becomes a regex
character class (leading `!` negates, ranges with `-`, a `]` directly after
the opening is literal, an unterminated class leaves `[` literal), every
other character is literal.  We implement that matcher directly, with a
fuel argument so that the recursion is structural (the fuel chosen in
`fnmatchcase` dominates the lexicographic measure (|name|, |pattern|)). -/

/-- Membership of `c` in the body of a glob character class:
`x-y` denotes a range (a `-` first or last in the body is literal). -/
def classMem : List Char → Char → Bool
  | x :: '-' :: y :: rest, c => (decide (x ≤ c) && decide (c ≤ y)) || classMem rest c
  | x :: rest, c => (x == c) || classMem rest c
  | [], _ => false

/-- Scan a character-class body for the closing `]`; returns the body and
the remainder of the pattern, or `none` for an unterminated class. -/
def scanClose : List Char → Option (List Char × List Char)
  | [] => none
  | ']' :: rest => some ([], rest)
  | c :: rest => (scanClose rest).map (fun p => (c :: p.1, p.2))

/-- Glob matching of `pattern` against `name`, full-match, case-sensitive,
as produced by `fnmatch.translate`.  `fuel` bounds recursion depth. -/
def globMatch : Nat → List Char → List Char → Bool
  | 0, _, _ => false
  | _ + 1, [], s => s.isEmpty
  | fuel + 1, '*' :: ps, s =>
    globMatch fuel ps s ||
      (match s with
       | [] => false
       | _ :: s' => globMatch fuel ('*' :: ps) s')
  | fuel + 1, '?' :: ps, s =>
    match s with
    | [] => false
    | _ :: s' => globMatch fuel ps s'
  | fuel + 1, '[' :: ps, s =>
    let neg := match ps with | '!' :: _ => true | _ => false
    let body := match ps with | '!' :: t => t | _ => ps
    let scanned :=
      match body with
      | ']' :: t => (scanClose t).map (fun p => ((']' :: p.1 : List Char), p.2))
      | _ => scanClose body
    match scanned with
    | none =>
      -- unterminated class: '[' is literal
      match s with
      | [] => false
      | c :: s' => (c = '[') && globMatch fuel ps s'
    | some (stuff, rest) =>
      match s with
      | [] => false
      | c :: s' => (neg != classMem stuff c) && globMatch fuel rest s'
  | fuel + 1, p :: ps, s =>
    match s with
    | [] => false
    | c :: s' => (p == c) && globMatch fuel ps s'

/-- `fnmatch.fnmatchcase(name, pattern)`. -/
def fnmatchcase (name pattern : String) : Bool :=
  globMatch ((name.data.length + 1) * (pattern.data.length + 2)) pattern.data name.data

/-! ## deep_fnmatch / pattern_matches / possible_matches -/

/-- `deep_fnmatch(pattern, filename)`: split both on `/`; segment counts
must agree and each pattern segment must `fnmatchcase` the corresponding
filename segment. -/
def deep_fnmatch (pattern filename : String) : Bool :=
  let patterns := pySplit '/' pattern
  let filenames := pySplit '/' filename
  if patterns.length ≠ filenames.length then false
  else (patterns.zip filenames).all (fun pf => fnmatchcase pf.2 pf.1)

/-- A manifest rule pattern: a plain string or a list of alternatives. -/
inductive PatternV where
  | pstr (s : String)
  | plist (ss : List String)
deriving DecidableEq, Repr

/-- `pattern_matches(pattern, file_spec)`: a string pattern is wrapped in a
singleton list; a list matches if any alternative does. -/
def pattern_matches (pattern : PatternV) (file_spec : String) : Bool :=
  match pattern with
  | .pstr s => [s].any (fun p => deep_fnmatch p file_spec)
  | .plist ss => ss.any (fun p => deep_fnmatch p file_spec)

/-- `non_empty(xs)`: drop falsy (empty) strings. -/
def non_empty (xs : List String) : List String := xs.filter (fun x => x != "")

/-- `possible_matches(prefix, filename)`: all suffixes of `filename` at
which a rule scoped to directory `prefix` could match.  The generator is
materialised as a list. -/
def possible_matches (pre filename : String) : List String :=
  let prefix_parts := non_empty (pySplit '/' pre)
  let parts := non_empty (pySplit '/' filename)
  if (prefix_parts.zip parts).all (fun ab => ab.1 == ab.2) then
    (List.range' prefix_parts.length (parts.length - prefix_parts.length)).map
      (fun i => pyJoin '/' (parts.drop i))
  else []

/-- `pattern_matches_anywhere(prefix, pattern, fname)`. -/
def pattern_matches_anywhere (pre : String) (pattern : PatternV) (fname : String) : Bool :=
  (possible_matches pre fname).any (fun spec => pattern_matches pattern spec)

/-! ## posixpath.dirname and all_directories

`posixpath.dirname(p)` takes `p` up to (and including) the last `/`, then
strips trailing slashes unless the head is empty or consists only of
slashes.  `all_directories` recurses through parents; the Python function
recurses forever on inputs (such as `/`) whose dirname is themselves, so
the embedding carries a fuel argument, `none` marking divergence. -/

/-- `rfind('/')`: index of the last slash. -/
def lastSlashPos : List Char → Option Nat
  | [] => none
  | c :: cs =>
    match lastSlashPos cs with
    | some k => some (k + 1)
    | none => if c = '/' then some 0 else none

/-- Python `head.rstrip('/')`. -/
def rstripSlash (cs : List Char) : List Char :=
  (cs.reverse.dropWhile (fun c => c == '/')).reverse

/-- `posixpath.dirname` on a character list. -/
def dirnameL (cs : List Char) : List Char :=
  let i := match lastSlashPos cs with | none => 0 | some k => k + 1
  let head := cs.take i
  if head ≠ [] ∧ ¬(head.all (fun c => c == '/')) then rstripSlash head else head

/-- `posixpath.dirname`. -/
def dirname (s : String) : String := ⟨dirnameL s.data⟩

/-- `all_directories(filename)` with explicit fuel; `none` = the Python
recursion does not terminate within `fuel` unfoldings. -/
def all_directories_fuel : Nat → String → Option (List String)
  | 0, _ => none
  | fuel + 1, filename =>
    if filename = "." ∨ filename = "" then some []
    else
      match all_directories_fuel fuel (dirname filename) with
      | none => none
      | some rest => some (dirname filename :: rest)

/-- `all_directories(filename)` for inputs on which the recursion
terminates (fuel `|filename| + 1` suffices for every relative path). -/
def all_directories (filename : String) : List String :=
  (all_directories_fuel (filename.data.length + 1) filename).getD []

/-! ## Manifest validation and rule resolution -/

/-- A rule as read from a PRECOMMIT manifest.  `pattern` and `check` are
optional because validation must check their presence; `env`, `no_new`
and `hint` default to empty/false when absent (`rule.get(...)`). -/
structure RawRule where
  pattern : Option PatternV
  check : Option String
  env : List (String × String)
  no_new : Bool
  hint : String
deriving DecidableEq, Repr

/-- A parsed PRECOMMIT manifest: `rules` is `none` when the member is
missing altogether. -/
structure Precommit where
  rules : Option (List RawRule)
deriving DecidableEq, Repr

/-- The per-rule half of `validate_precommit`. -/
def validate_rules : List RawRule → Option String
  | [] => none
  | r :: rs =>
    if r.pattern = none then some "Rule should have a pattern member"
    else if r.check = none then some "Rule should have a check member"
    else validate_rules rs

/-- `validate_precommit(precommit)`: `some msg` models the raised
`RuntimeError`, `none` models silent success. -/
def validate_precommit (p : Precommit) : Option String :=
  match p.rules with
  | none => some "Precommit should have a rules member"
  | some rs => validate_rules rs

/-- Python `set.add`: append if not already present. -/
def setInsert {β : Type} [DecidableEq β] (s : List β) (x : β) : List β :=
  if x ∈ s then s else s ++ [x]

/-- `apply_precommit(prefix, precommit, all_files)`: the set of
`(rule, filename)` pairs whose rule matches the file anywhere under
`prefix`.  The Python `set` is modelled as an insertion-ordered
duplicate-free list.  (Called only on validated manifests, so a missing
`pattern` contributes nothing rather than raising `KeyError`.) -/
def apply_precommit (pre : String) (precommit : Precommit) (all_files : List String) :
    List (RawRule × String) :=
  ((precommit.rules.getD []).flatMap (fun rule =>
      all_files.filterMap (fun fname =>
        match rule.pattern with
        | some pat =>
          if pattern_matches_anywhere pre pat fname then some (rule, fname) else none
        | none => none))).foldl setInsert []

/-- `posixpath.join` for two components. -/
def pyPathJoin2 (a b : String) : String :=
  if b.data.headD ' ' = '/' then b
  else if a = "" ∨ a.data.getLastD ' ' = '/' then a ++ b
  else a ++ "/" ++ b

/-- `posixpath.join` for three components. -/
def pyPathJoin3 (a b c : String) : String := pyPathJoin2 (pyPathJoin2 a b) c

/-- `apply_precommit_file`: validate the already-parsed manifest found at
`precommit_file` and apply it; a validation error is re-raised with the
manifest location prepended. -/
def apply_precommit_file (pre precommit_file : String) (precommit_obj : Precommit)
    (all_files : List String) : Except String (List (RawRule × String)) :=
  match validate_precommit precommit_obj with
  | some e => .error ("Error parsing " ++ precommit_file ++ ": " ++ e)
  | none => .ok (apply_precommit pre precommit_obj all_files)

/-- The generator inside `find_checks`: concatenate the per-manifest check
sets in directory order, propagating the first manifest error. -/
def collect_checks (root_dir : String) (files : List String) :
    List (String × Precommit) → Except String (List (RawRule × String))
  | [] => .ok []
  | (d, m) :: rest =>
    match apply_precommit_file d (pyPathJoin3 root_dir d "PRECOMMIT") m files with
    | .error e => .error e
    | .ok cs =>
      match collect_checks root_dir files rest with
      | .error e => .error e
      | .ok more => .ok (cs ++ more)

/-- `find_checks(root_dir, changed_files, ...)`.  The filesystem lookup
`path.isfile(<root>/<d>/PRECOMMIT)` plus `gcl.load` is abstracted into
`manifest_at : directory → Option Precommit`.  The Python `set` of
candidate directories is modelled as a deduplicated list. -/
def find_checks (root_dir : String) (manifest_at : String → Option Precommit)
    (changed_files : List String) : Except String (List (RawRule × String)) :=
  let directories := (changed_files.flatMap all_directories).dedup
  let actual := directories.filterMap (fun d => (manifest_at d).map (fun m => (d, m)))
  collect_checks root_dir changed_files actual

/-! ## Execution harness: run_script completion logic -/

/-- Outcome of one `RunContext.run_script` call. -/
inductive RunOutcome where
  /-- `RuntimeError('... exited with non-zero exit code ...')`. -/
  | exitError (cmd : String) (exitcode : Int)
  /-- `RuntimeError('Error while executing ...')` wrapping an `OSError`. -/
  | launchError (cmd : String)
  /-- `Aborted`. -/
  | aborted
  /-- Normal return of the captured standard output. -/
  | ok (output : String)
deriving DecidableEq, Repr

/-- Observable behaviour of one launched child process: its final exit
code, the value of the global `interrupted` flag at the moment it is
tested after the waits, and the output drained by the background reader. -/
structure ProcessRun where
  returncode : Int
  interrupted_after : Bool
  captured : String
deriving DecidableEq, Repr

/-- The post-completion logic of `run_script` (lines 322-328): first the
exit-code test, then the `interrupted` test, then the captured output. -/
def run_script_complete (cmd : String) (ignore_exitcode : Bool) (pr : ProcessRun) :
    RunOutcome :=
  if pr.returncode ≠ 0 ∧ ignore_exitcode = false then .exitError cmd pr.returncode
  else if pr.interrupted_after then .aborted
  else .ok pr.captured

/-! ## Child environment construction (run_script lines 293-299) -/

/-- Lookup in a caller-supplied `env` mapping (`env.get(k)`). -/
def env_get (e : List (String × String)) (k : String) : Option String :=
  (e.find? (fun p => p.1 == k)).map (fun p => p.2)

/-- Build the child environment: copy `os.environ`, overwrite `PYTHONPATH`
with `internal_path + ':' + env.get('PYTHONPATH', '')`, then copy every
caller-supplied binding over the result (in mapping order). -/
def build_run_env (os_environ : String → Option String) (internal_path : String)
    (env : List (String × String)) : String → Option String :=
  let base : String → Option String := fun k =>
    if k = "PYTHONPATH" then some (internal_path ++ ":" ++ (env_get env "PYTHONPATH").getD "")
    else os_environ k
  env.foldl (fun acc kv => fun k => if k = kv.1 then some kv.2 else acc k) base

/-! ## Error catcher and the execution phase of Checks.run -/

/-- Exceptions that can escape one check. -/
inductive GpkExc where
  /-- `Aborted` (user interrupt). -/
  | aborted
  /-- `CheckFailedError(check, filename, report, hint)`. -/
  | checkFailed (check filename report hint : String)
  /-- Any other error (e.g. `RuntimeError`). -/
  | runtimeError (msg : String)
deriving DecidableEq, Repr

/-- `ErrorCatcher.__exit__`: given the error list and the exception leaving
the block (`none` = no exception), return the new error list and whether
the exception is suppressed (`True` = swallowed, `False` = propagates).
`Aborted` propagates un-appended; anything else is appended and
swallowed. -/
def error_catcher_exit (errors : List GpkExc) (exc : Option GpkExc) :
    List GpkExc × Bool :=
  match exc with
  | some .aborted => (errors, false)
  | some e => (errors ++ [e], true)
  | none => (errors, true)

/-- The execution-phase loop of `Checks.run`: each check's outcome
(`none` = returned normally, `some e` = raised `e`) is passed through the
error catcher; a non-suppressed exception stops the loop.  Returns the
final error list and whether the run was aborted. -/
def checks_run_phase : List (Option GpkExc) → List GpkExc → List GpkExc × Bool
  | [], errors => (errors, false)
  | o :: rest, errors =>
    let step := error_catcher_exit errors o
    if step.2 then checks_run_phase rest step.1 else (step.1, true)

/-! ## difflib.SequenceMatcher

`Check._diff_errors` delegates the line alignment to Python's
`difflib.SequenceMatcher(a=old_lines, b=new_lines, isjunk=blank)`.  The
embedding below follows CPython's `difflib` (the `__chain_b` index table
with junk and autojunk removal, `find_longest_match` with its `j2len`
dynamic program and the four junk/non-junk extension loops,
`get_matching_blocks` with its explicit work queue, sort and
adjacent-block merge, and `get_opcodes`).  It is generic in the element
type; `_diff_errors` instantiates it at `String`. -/

variable {α : Type} [DecidableEq α]

/-- Is `x` a key of `self.b2j` after junk and autojunk (popular-element)
elimination?  `x` survives iff it occurs in `b`, is not junk, and — when
`len(b) >= 200` — occurs at most `len(b) // 100 + 1` times. -/
def inB2J (junk : α → Bool) (b : List α) (x : α) : Bool :=
  b.count x != 0 && !junk x &&
    !(decide (200 ≤ b.length) && decide (b.length / 100 + 1 < b.count x))

/-- Ascending list of positions of `x` in `b`. -/
def indicesOf (b : List α) (x : α) : List Nat :=
  (List.range b.length).filter (fun j => b.get? j = some x)

/-- `self.b2j.get(x, [])`. -/
def b2j (junk : α → Bool) (b : List α) (x : α) : List Nat :=
  if inB2J junk b x then indicesOf b x else []

/-- The inner `for j in b2j.get(a[i], [])` loop of `find_longest_match`:
`js` is already restricted to `blo <= j < bhi` (the `continue`/`break`
pair on an ascending list).  `j2len` is the previous row of the dynamic
program, `newj2len` the row being built (absent key = 0).  Nat
subtraction: in `i + 1 - k` the reachable states have `k ≤ i + 1`, so
this equals Python's `i - k + 1`. -/
def flmJLoop (i : Nat) (j2len : Nat → Nat) :
    List Nat → (Nat → Nat) → Nat × Nat × Nat → (Nat → Nat) × (Nat × Nat × Nat)
  | [], newj2len, best => (newj2len, best)
  | j :: js, newj2len, best =>
    let k := (if j = 0 then 0 else j2len (j - 1)) + 1
    let newj2len' : Nat → Nat := fun j' => if j' = j then k else newj2len j'
    let best' := if best.2.2 < k then (i + 1 - k, j + 1 - k, k) else best
    flmJLoop i j2len js newj2len' best'

/-- The outer `for i in range(alo, ahi)` loop of `find_longest_match`. -/
def flmILoop (a b : List α) (junk : α → Bool) (blo bhi : Nat) :
    List Nat → (Nat → Nat) → Nat × Nat × Nat → Nat × Nat × Nat
  | [], _, best => best
  | i :: is, j2len, best =>
    let js :=
      match a.get? i with
      | some x => (b2j junk b x).filter (fun j => decide (blo ≤ j) && decide (j < bhi))
      | none => []
    let step := flmJLoop i j2len js (fun _ => 0) best
    flmILoop a b junk blo bhi is step.1 step.2

/-- Length of the longest run of positions `t, t+1, ...` satisfying `p`,
capped at `n` (a Python `while` loop that takes at most `n` steps). -/
def extLen (p : Nat → Bool) : Nat → Nat → Nat
  | _, 0 => 0
  | t, n + 1 => if p t then extLen p (t + 1) n + 1 else 0

/-- The four extension `while` loops at the end of `find_longest_match`:
extend the best block backwards then forwards over equal non-junk
elements, then backwards then forwards over equal junk elements. -/
def flmExtend (a b : List α) (junk : α → Bool) (alo ahi blo bhi : Nat)
    (best : Nat × Nat × Nat) : Nat × Nat × Nat :=
  let bi0 := best.1
  let bj0 := best.2.1
  let bs0 := best.2.2
  let s1 := extLen (fun s =>
      match a.get? (bi0 - 1 - s), b.get? (bj0 - 1 - s) with
      | some x, some y => !junk y && x == y
      | _, _ => false) 0 (min (bi0 - alo) (bj0 - blo))
  let bi1 := bi0 - s1
  let bj1 := bj0 - s1
  let bs1 := bs0 + s1
  let s2 := extLen (fun s =>
      match a.get? (bi1 + bs1 + s), b.get? (bj1 + bs1 + s) with
      | some x, some y => !junk y && x == y
      | _, _ => false) 0 (min (ahi - (bi1 + bs1)) (bhi - (bj1 + bs1)))
  let bs2 := bs1 + s2
  let s3 := extLen (fun s =>
      match a.get? (bi1 - 1 - s), b.get? (bj1 - 1 - s) with
      | some x, some y => junk y && x == y
      | _, _ => false) 0 (min (bi1 - alo) (bj1 - blo))
  let bi3 := bi1 - s3
  let bj3 := bj1 - s3
  let bs3 := bs2 + s3
  let s4 := extLen (fun s =>
      match a.get? (bi3 + bs3 + s), b.get? (bj3 + bs3 + s) with
      | some x, some y => junk y && x == y
      | _, _ => false) 0 (min (ahi - (bi3 + bs3)) (bhi - (bj3 + bs3)))
  (bi3, bj3, bs3 + s4)

/-- `SequenceMatcher.find_longest_match(alo, ahi, blo, bhi)`. -/
def find_longest_match (a b : List α) (junk : α → Bool) (alo ahi blo bhi : Nat) :
    Nat × Nat × Nat :=
  flmExtend a b junk alo ahi blo bhi
    (flmILoop a b junk blo bhi (List.range' alo (ahi - alo)) (fun _ => 0) (alo, blo, 0))

/-- The work-queue loop of `get_matching_blocks`.  The Python queue is a
LIFO stack (`list.pop()`); the two sub-ranges are appended left first,
so the right one is popped first.  `fuel` dominates the loop's potential
(each popped range of combined size `m` costs at most `m + 1` pops). -/
def gmbLoop (a b : List α) (junk : α → Bool) :
    Nat → List (Nat × Nat × Nat × Nat) → List (Nat × Nat × Nat) → List (Nat × Nat × Nat)
  | 0, _, acc => acc
  | _ + 1, [], acc => acc
  | fuel + 1, (alo, ahi, blo, bhi) :: rest, acc =>
    let m := find_longest_match a b junk alo ahi blo bhi
    let i := m.1
    let j := m.2.1
    let k := m.2.2
    if k ≠ 0 then
      let q2 := if i + k < ahi ∧ j + k < bhi then [(i + k, ahi, j + k, bhi)] else []
      let q1 := if alo < i ∧ blo < j then [(alo, i, blo, j)] else []
      gmbLoop a b junk fuel (q2 ++ q1 ++ rest) (m :: acc)
    else gmbLoop a b junk fuel rest acc

/-- Lexicographic order on matching blocks (`matching_blocks.sort()`). -/
def blkLe (x y : Nat × Nat × Nat) : Bool :=
  decide (x.1 < y.1) ||
    (x.1 == y.1 && (decide (x.2.1 < y.2.1) ||
      (x.2.1 == y.2.1 && decide (x.2.2 ≤ y.2.2))))

/-- Insertion into a `blkLe`-sorted list. -/
def blkInsert (x : Nat × Nat × Nat) : List (Nat × Nat × Nat) → List (Nat × Nat × Nat)
  | [] => [x]
  | y :: ys => if blkLe x y then x :: y :: ys else y :: blkInsert x ys

/-- Sorting of the collected matching blocks. -/
def blkSort : List (Nat × Nat × Nat) → List (Nat × Nat × Nat)
  | [] => []
  | x :: xs => blkInsert x (blkSort xs)

/-- The adjacent-block merging fold of `get_matching_blocks`, starting
from the sentinel `(0, 0, 0)`. -/
def mergeAdjacent : Nat × Nat × Nat → List (Nat × Nat × Nat) → List (Nat × Nat × Nat)
  | (i1, j1, k1), [] => if k1 ≠ 0 then [(i1, j1, k1)] else []
  | (i1, j1, k1), (i2, j2, k2) :: rest =>
    if i1 + k1 = i2 ∧ j1 + k1 = j2 then mergeAdjacent (i1, j1, k1 + k2) rest
    else (if k1 ≠ 0 then [(i1, j1, k1)] else []) ++ mergeAdjacent (i2, j2, k2) rest

/-- `SequenceMatcher.get_matching_blocks()`, terminal sentinel included. -/
def get_matching_blocks (a b : List α) (junk : α → Bool) : List (Nat × Nat × Nat) :=
  mergeAdjacent (0, 0, 0)
      (blkSort (gmbLoop a b junk (a.length + b.length + 1)
        [(0, a.length, 0, b.length)] [])) ++
    [(a.length, b.length, 0)]

/-- Opcode tags of `get_opcodes`. -/
inductive OpTag where
  | replace
  | delete
  | insert
  | equal
deriving DecidableEq, Repr

/-- One opcode `(tag, i1, i2, j1, j2)`. -/
structure Opcode where
  tag : OpTag
  a0 : Nat
  a1 : Nat
  b0 : Nat
  b1 : Nat
deriving DecidableEq, Repr

/-- The fold inside `get_opcodes` over the matching blocks. -/
def opcodesLoop : Nat → Nat → List (Nat × Nat × Nat) → List Opcode
  | _, _, [] => []
  | i, j, (ai, bj, size) :: rest =>
    let tags : List Opcode :=
      if i < ai ∧ j < bj then [⟨.replace, i, ai, j, bj⟩]
      else if i < ai then [⟨.delete, i, ai, j, bj⟩]
      else if j < bj then [⟨.insert, i, ai, j, bj⟩]
      else []
    let eqs : List Opcode := if size ≠ 0 then [⟨.equal, ai, ai + size, bj, bj + size⟩] else []
    tags ++ eqs ++ opcodesLoop (ai + size) (bj + size) rest

/-- `SequenceMatcher.get_opcodes()`. -/
def get_opcodes (a b : List α) (junk : α → Bool) : List Opcode :=
  opcodesLoop 0 0 (get_matching_blocks a b junk)

/-! ## Check._diff_errors -/

/-- Python `str.isspace` characters relevant to `str.strip()`. -/
def pyIsSpace (c : Char) : Bool :=
  c == ' ' || c == '\t' || c == '\n' || c == '\r' || c == '\x0b' || c == '\x0c'

/-- `isjunk=lambda x: not x.strip()`: blank or whitespace-only line. -/
def lineIsJunk (s : String) : Bool := s.data.all pyIsSpace

/-- The `added` list of `_diff_errors`: new-side lines of every `insert`
or `replace` opcode (`added.extend(new_lines[b0:b1])`). -/
def diffAdded (old_lines new_lines : List String) : List String :=
  (get_opcodes old_lines new_lines lineIsJunk).flatMap (fun op =>
    if op.tag = OpTag.insert ∨ op.tag = OpTag.replace then
      (new_lines.drop op.b0).take (op.b1 - op.b0)
    else [])

/-- `Check._diff_errors(old_errors, new_errors)`: `some report` models a
raised `CheckFailedError` carrying `report`, `none` a silent return. -/
def diff_errors (old_errors new_errors : String) : Option String :=
  if old_errors = "" then (if new_errors ≠ "" then some new_errors else none)
  else
    let old_lines := pySplit '\n' old_errors
    let new_lines := pySplit '\n' new_errors
    let added := diffAdded old_lines new_lines
    if added ≠ [] then some (pyJoin '\n' added) else none

/-! ## Proof-support definitions for the SequenceMatcher analysis

Vocabulary for reasoning about `get_opcodes` on two *equal* sequences:
"present" positions (those surviving junk and autojunk elimination),
diagonal runs of present positions, interval disjointness of matching
blocks, and consecutive block chains. -/

/-- Does position `t` of `b` hold an element present in the `b2j` index
table? -/
def presF (junk : α → Bool) (b : List α) (t : Nat) : Bool :=
  match b.get? t with
  | some x => inB2J junk b x
  | none => false

/-- Length of the maximal run of `pres`-positions ending at `t` and
contained in `[lo, t]`. -/
def dRun (pres : Nat → Bool) (lo : Nat) : Nat → Nat
  | 0 => if lo = 0 && pres 0 then 1 else 0
  | t + 1 =>
    if lo ≤ t + 1 && pres (t + 1) then (if lo = t + 1 then 1 else dRun pres lo t + 1)
    else 0

/-- `dRun` at the position preceding `i` (0 when `i ≤ lo`). -/
def dPrev (pres : Nat → Bool) (lo : Nat) : Nat → Nat
  | 0 => 0
  | t + 1 => if lo ≤ t then dRun pres lo t else 0

/-- Invariant of the `j2len` row before processing outer index `i`. -/
def RowInv (pres : Nat → Bool) (lo i : Nat) (row : Nat → Nat) : Prop :=
  (∀ j, row j ≤ dRun pres lo j) ∧ (∀ j, row j ≤ dPrev pres lo i) ∧
    (lo < i → row (i - 1) = dRun pres lo (i - 1))

/-- Invariant of the running best block after processing `[lo, i)`. -/
def BestInv (pres : Nat → Bool) (lo i : Nat) (best : Nat × Nat × Nat) : Prop :=
  best.1 = best.2.1 ∧ lo ≤ best.1 ∧ best.1 + best.2.2 ≤ max lo i ∧
    (∀ t, lo ≤ t → t < i → dRun pres lo t ≤ best.2.2) ∧
    (best.2.2 = 0 → best.1 = lo)

/-- Weakened best-block invariant holding *during* the processing of outer
index `i` (an update at the diagonal may already have pushed the block end
to `i + 1`). -/
def BestMid (pres : Nat → Bool) (lo i : Nat) (best : Nat × Nat × Nat) : Prop :=
  best.1 = best.2.1 ∧ lo ≤ best.1 ∧ best.1 + best.2.2 ≤ max lo (i + 1) ∧
    (∀ t, lo ≤ t → t < i → dRun pres lo t ≤ best.2.2) ∧
    (best.2.2 = 0 → best.1 = lo)

/-- Disjointness of two half-open intervals. -/
def ivDisj (u v : Nat × Nat) : Prop := u.2 ≤ v.1 ∨ v.2 ≤ u.1

/-- The interval covered by a matching block. -/
def blkIv (m : Nat × Nat × Nat) : Nat × Nat := (m.1, m.1 + m.2.2)

/-- The (a-side) interval covered by a queued range. -/
def rngIv (r : Nat × Nat × Nat × Nat) : Nat × Nat := (r.1, r.2.1)

/-- Loop invariant of the `get_matching_blocks` work queue on a pair of
equal sequences of length `n`: every queued range is aligned and within
bounds, every collected block is diagonal, non-empty and within bounds,
the blocks and ranges jointly cover `[0, n)`, and their intervals are
pairwise disjoint. -/
def GmbInv (n : Nat) (queue : List (Nat × Nat × Nat × Nat))
    (acc : List (Nat × Nat × Nat)) : Prop :=
  (∀ r ∈ queue, r.1 = r.2.2.1 ∧ r.2.1 = r.2.2.2 ∧ r.1 ≤ r.2.1 ∧ r.2.1 ≤ n) ∧
    (∀ m ∈ acc, m.1 = m.2.1 ∧ 0 < m.2.2 ∧ m.1 + m.2.2 ≤ n) ∧
    (∀ t, t < n →
      (∃ m ∈ acc, m.1 ≤ t ∧ t < m.1 + m.2.2) ∨ (∃ r ∈ queue, r.1 ≤ t ∧ t < r.2.1)) ∧
    List.Pairwise ivDisj (acc.map blkIv ++ queue.map rngIv)

/-- Potential of the work queue: each aligned range of size `s` costs at
most `2 s + 1` loop iterations in total. -/
def gmbPot : List (Nat × Nat × Nat × Nat) → Nat
  | [] => 0
  | r :: rest => (r.2.1 - r.1) + (r.2.2.2 - r.2.2.1) + 1 + gmbPot rest

/-- Blocks are diagonal, non-empty, within `[c, n)`. -/
def BlocksOK (n c : Nat) (l : List (Nat × Nat × Nat)) : Prop :=
  ∀ m ∈ l, m.1 = m.2.1 ∧ 0 < m.2.2 ∧ c ≤ m.1 ∧ m.1 + m.2.2 ≤ n

/-- A sorted partition of `[c, n)` into diagonal blocks. -/
def Consec (n : Nat) : Nat → List (Nat × Nat × Nat) → Prop
  | c, [] => c = n
  | c, m :: rest => m.1 = c ∧ m.2.1 = c ∧ 0 < m.2.2 ∧ Consec n (c + m.2.2) rest

/-- A chain of blocks with consecutive cursors from `c` to `e` (block
sizes may be zero — the terminal sentinel). -/
def ChainSeg (e : Nat) : Nat → List (Nat × Nat × Nat) → Prop
  | c, [] => c = e
  | c, m :: rest => m.1 = c ∧ m.2.1 = c ∧ ChainSeg e (c + m.2.2) rest

/-! ## Concrete sample data for counterexamples and witnesses -/

/-- A sample manifest rule: `{pattern: '*.py', check: 'pyflakes'}`. -/
def sampleRule : RawRule := ⟨some (PatternV.pstr "*.py"), some "pyflakes", [], false, ""⟩

/-- A sample manifest holding just `sampleRule`. -/
def sampleManifest : Precommit := ⟨some [sampleRule]⟩

/-- A manifest provider with the sample manifest at `a/` and at the root:
both directories are ancestors of the changed file `a/b.py`. -/
def sampleProvider : String → Option Precommit :=
  fun d => if d = "a" ∨ d = "" then some sampleManifest else none

/-- A manifest provider with the sample manifest at `q/` and at the root. -/
def sampleProviderQ : String → Option Precommit :=
  fun d => if d = "q" ∨ d = "" then some sampleManifest else none

end Gpk

namespace Gpk

/-! # Claim theorems -/

/-- **C1** (counterexample).  The claim states that whenever the global
interrupt flag was set during the run, a completed `run_script` call fails
with `Aborted`.  In the code the nonzero-exit test precedes the
`interrupted` test: with exit code 1, `ignore_exitcode` false and the flag
set, the call raises the nonzero-exit `RuntimeError`, not `Aborted`. -/
theorem C1_counterexample :
    run_script_complete "check" false ⟨1, true, "out"⟩ = RunOutcome.exitError "check" 1 ∧
      run_script_complete "check" false ⟨1, true, "out"⟩ ≠ RunOutcome.aborted := by
  constructor
  · rfl
  · intro h
    simp [run_script_complete] at h

/-- **C1** (amended).  After the launched process completes, the nonzero
exit-code test runs first: a nonzero exit code with `ignore_exitcode`
false always yields the `ExecutionError` carrying the command and exit
code, even when the interrupt flag was set; only when that test passes
(exit code zero, or exit code ignored) does a set interrupt flag fail the
call with `Aborted` and discard the captured output; otherwise the
captured output is returned. -/
theorem C1_amended_exit_code_precedes_abort (cmd : String) (ig : Bool) (pr : ProcessRun) :
    (pr.returncode ≠ 0 → ig = false →
        run_script_complete cmd ig pr = RunOutcome.exitError cmd pr.returncode) ∧
      ((pr.returncode = 0 ∨ ig = true) → pr.interrupted_after = true →
        run_script_complete cmd ig pr = RunOutcome.aborted) ∧
      ((pr.returncode = 0 ∨ ig = true) → pr.interrupted_after = false →
        run_script_complete cmd ig pr = RunOutcome.ok pr.captured) := by
  refine ⟨fun h1 h2 => ?_, fun h1 h2 => ?_, fun h1 h2 => ?_⟩
  · simp [run_script_complete, h1, h2]
  · rcases h1 with h | h <;> simp [run_script_complete, h, h2]
  · rcases h1 with h | h <;> simp [run_script_complete, h, h2]

/-- **C1** (witness for the amended theorem). -/
theorem C1_amended_witness :
    ((3 : Int) ≠ 0 ∧ run_script_complete "c" false ⟨3, true, "o"⟩ = RunOutcome.exitError "c" 3) ∧
      ((0 : Int) = 0 ∧ run_script_complete "c" false ⟨0, true, "o"⟩ = RunOutcome.aborted) ∧
      ((0 : Int) = 0 ∧ run_script_complete "c" false ⟨0, false, "o"⟩ = RunOutcome.ok "o") :=
  ⟨⟨by decide, (C1_amended_exit_code_precedes_abort "c" false ⟨3, true, "o"⟩).1 (by decide) rfl⟩,
   ⟨rfl, (C1_amended_exit_code_precedes_abort "c" false ⟨0, true, "o"⟩).2.1 (Or.inl rfl) rfl⟩,
   ⟨rfl, (C1_amended_exit_code_precedes_abort "c" false ⟨0, false, "o"⟩).2.2 (Or.inl rfl) rfl⟩⟩

/-- **C2** (code bug).  The claim (and the spec) require
`filterNew(old, '') == ''` for every `old`.  In the code, the empty new
output splits into the single line `''`, `SequenceMatcher` classifies the
whole old output against it as one `replace` region, and the collected
new-side lines `['']` form a non-empty list, so `_diff_errors('a', '')`
raises a `CheckFailedError` — with an empty report text. -/
theorem C2_empty_new_output_still_raises :
    diff_errors "a" "" = some "" ∧ diff_errors "a" "" ≠ none := by
  constructor
  · rfl
  · intro h
    rw [show diff_errors "a" "" = some "" from rfl] at h
    exact Option.noConfusion h

/-- The per-rule validation loop succeeds exactly when every rule carries
both a `pattern` and a `check` member. -/
theorem validate_rules_eq_none_iff (rs : List RawRule) :
    validate_rules rs = none ↔ ∀ r ∈ rs, r.pattern ≠ none ∧ r.check ≠ none := by
  induction rs with
  | nil => simp [validate_rules]
  | cons r rs ih =>
    by_cases hp : r.pattern = none
    · simp [validate_rules, hp]
    · by_cases hc : r.check = none
      · simp [validate_rules, hp, hc]
      · simp [validate_rules, hp, hc, ih]

/-- **C3** (counterexample).  The claim requires a *non-empty* rule list;
a manifest with `rules = []` passes `validate_precommit` (the per-rule
loop never runs) and resolution succeeds with an empty check set instead
of failing. -/
theorem C3_counterexample_empty_rule_list_accepted :
    validate_precommit ⟨some []⟩ = none ∧
      apply_precommit_file "" "ROOT/PRECOMMIT" ⟨some []⟩ ["f.py"] = Except.ok [] :=
  ⟨rfl, rfl⟩

/-- **C3** (amended).  Validation requires the presence of the `rules`
member and that every listed rule has both `pattern` and `check`; an
*empty* rule list is accepted.  A manifest failing validation fails the
whole resolution with an error message naming the manifest's location. -/
theorem C3_amended_manifest_validation (p : Precommit) (pre loc : String)
    (files : List String) :
    (validate_precommit p = none ↔
        ∃ rs, p.rules = some rs ∧ ∀ r ∈ rs, r.pattern ≠ none ∧ r.check ≠ none) ∧
      (∀ e, validate_precommit p = some e →
        apply_precommit_file pre loc p files =
          Except.error ("Error parsing " ++ loc ++ ": " ++ e)) ∧
      (validate_precommit p = none →
        apply_precommit_file pre loc p files = Except.ok (apply_precommit pre p files)) := by
  refine ⟨?_, fun e he => ?_, fun he => ?_⟩
  · cases hr : p.rules with
    | none => simp [validate_precommit, hr]
    | some rs => simp [validate_precommit, hr, validate_rules_eq_none_iff]
  · simp [apply_precommit_file, he]
  · simp [apply_precommit_file, he]

/-- **C3** (witness for the amended theorem). -/
theorem C3_amended_witness :
    (validate_precommit ⟨some [⟨some (PatternV.pstr "*.py"), none, [], false, ""⟩]⟩ =
        some "Rule should have a check member") ∧
      apply_precommit_file "" "sub/PRECOMMIT"
          ⟨some [⟨some (PatternV.pstr "*.py"), none, [], false, ""⟩]⟩ ["a.py"] =
        Except.error ("Error parsing " ++ "sub/PRECOMMIT" ++ ": " ++
          "Rule should have a check member") :=
  ⟨rfl,
    (C3_amended_manifest_validation
        ⟨some [⟨some (PatternV.pstr "*.py"), none, [], false, ""⟩]⟩ "" "sub/PRECOMMIT"
        ["a.py"]).2.1 _ rfl⟩

/-- **C4** (counterexample).  The deduplicating `set` lives inside one
`apply_precommit` call only.  With the same rule present in the manifests
of two ancestor directories of the changed file `a/b.py` — two different
directory prefixes under which the rule matches the file — `find_checks`
returns *two* `(rule, file)` pairs, not one. -/
theorem C4_counterexample_same_rule_two_prefixes :
    find_checks "r" sampleProvider ["a/b.py"] =
        Except.ok [(sampleRule, "a/b.py"), (sampleRule, "a/b.py")] ∧
      [(sampleRule, "a/b.py"), (sampleRule, "a/b.py")].countP
        (fun y => decide (y = (sampleRule, "a/b.py"))) = 2 :=
  ⟨rfl, by decide⟩

/-- `setInsert` keeps lists duplicate-free, and hence so does the
`set`-building fold of `apply_precommit`. -/
theorem nodup_foldl_setInsert {β : Type} [DecidableEq β] :
    ∀ (xs s : List β), s.Nodup → (xs.foldl setInsert s).Nodup := by
  intro xs
  induction xs with
  | nil => intro s hs; exact hs
  | cons x xs ih =>
    intro s hs
    refine ih _ ?_
    by_cases hx : x ∈ s
    · simpa [setInsert, hx] using hs
    · simp [setInsert, hx, List.nodup_append, hs]

/-- One `apply_precommit` call returns a duplicate-free pair list. -/
theorem apply_precommit_nodup (pre : String) (m : Precommit) (files : List String) :
    (apply_precommit pre m files).Nodup := by
  exact nodup_foldl_setInsert _ _ List.nodup_nil

/-- `apply_precommit_file` on a valid manifest returns exactly the
`apply_precommit` pair set. -/
theorem apply_precommit_file_ok (pre loc : String) (m : Precommit) (files : List String)
    (cs : List (RawRule × String)) (h : apply_precommit_file pre loc m files = Except.ok cs) :
    cs = apply_precommit pre m files := by
  unfold apply_precommit_file at h
  cases hv : validate_precommit m with
  | none => rw [hv] at h; exact (Except.ok.injEq _ _).mp h.symm
  | some e => rw [hv] at h; exact absurd h (by simp)

/-- In a duplicate-free list every element occurs with multiplicity at
most one. -/
theorem countP_eq_ite_of_nodup {β : Type} [DecidableEq β] :
    ∀ (l : List β), l.Nodup → ∀ x : β,
      l.countP (fun y => decide (y = x)) = if x ∈ l then 1 else 0 := by
  intro l
  induction l with
  | nil => intro _ x; simp
  | cons a l ih =>
    intro hnd x
    obtain ⟨ha, hl⟩ := List.nodup_cons.mp hnd
    rw [List.countP_cons]
    by_cases hax : a = x
    · subst hax
      have hz : l.countP (fun y => decide (y = a)) = 0 :=
        List.countP_eq_zero.mpr (fun y hy => by simp; rintro rfl; exact ha hy)
      simp [hz]
    · have hxa : ¬ x = a := fun h => hax h.symm
      simp only [List.mem_cons]
      rw [ih hl x]
      simp [hax, hxa]

/-- The multiplicity of a `(rule, file)` pair in the concatenated result
of `collect_checks` is the number of contributing manifests. -/
theorem collect_checks_count (root : String) (files : List String) :
    ∀ (l : List (String × Precommit)) (cs : List (RawRule × String)) (x : RawRule × String),
      collect_checks root files l = Except.ok cs →
      cs.countP (fun y => decide (y = x)) =
        l.countP (fun dm => decide (x ∈ apply_precommit dm.1 dm.2 files)) := by
  intro l
  induction l with
  | nil =>
    intro cs x h
    simp only [collect_checks, Except.ok.injEq] at h
    subst h
    simp
  | cons dm rest ih =>
    intro cs x h
    obtain ⟨d, m⟩ := dm
    simp only [collect_checks] at h
    cases happ : apply_precommit_file d (pyPathJoin3 root d "PRECOMMIT") m files with
    | error e => rw [happ] at h; exact absurd h (by simp)
    | ok cs1 =>
      rw [happ] at h
      cases hrest : collect_checks root files rest with
      | error e => rw [hrest] at h; exact absurd h (by simp)
      | ok more =>
        rw [hrest] at h
        have hcs : cs = cs1 ++ more := ((Except.ok.injEq _ _).mp h).symm
        subst hcs
        have hcs1 := apply_precommit_file_ok _ _ _ _ _ happ
        subst hcs1
        rw [List.countP_append, List.countP_cons, ih more x hrest,
          countP_eq_ite_of_nodup _ (apply_precommit_nodup d m files) x]
        by_cases hmem : x ∈ apply_precommit d m files
        · simp [hmem, Nat.add_comm]
        · simp [hmem]

/-- **C4** (amended).  Deduplication by `(rule, file)` happens only within
the application of a single manifest: each `apply_precommit` result is
duplicate-free, and in the overall `find_checks` result the multiplicity
of a pair equals the number of manifest-bearing candidate directories
whose application produced it — a rule present under several directory
prefixes therefore yields one Check per manifest, not one Check
overall. -/
theorem C4_dedup_per_manifest_only (pre root : String) (m : Precommit)
    (files : List String) (mat : String → Option Precommit)
    (cs : List (RawRule × String)) (x : RawRule × String) :
    (apply_precommit pre m files).Nodup ∧
      (find_checks root mat files = Except.ok cs →
        cs.countP (fun y => decide (y = x)) =
          ((files.flatMap all_directories).dedup.filterMap
              (fun d => (mat d).map (fun mm => (d, mm)))).countP
            (fun dm => decide (x ∈ apply_precommit dm.1 dm.2 files))) := by
  refine ⟨apply_precommit_nodup pre m files, fun h => ?_⟩
  simp only [find_checks] at h
  exact collect_checks_count root files _ cs x h

/-- **C4** (witness for the amended theorem). -/
theorem C4_witness :
    find_checks "rt" sampleProviderQ ["q/w.py"] =
        Except.ok [(sampleRule, "q/w.py"), (sampleRule, "q/w.py")] ∧
      [(sampleRule, "q/w.py"), (sampleRule, "q/w.py")].countP
          (fun y => decide (y = (sampleRule, "q/w.py"))) =
        ((["q/w.py"].flatMap all_directories).dedup.filterMap
            (fun d => (sampleProviderQ d).map (fun mm => (d, mm)))).countP
          (fun dm => decide ((sampleRule, "q/w.py") ∈ apply_precommit dm.1 dm.2 ["q/w.py"])) :=
  ⟨rfl,
    (C4_dedup_per_manifest_only "" "rt" sampleManifest ["q/w.py"] sampleProviderQ
      [(sampleRule, "q/w.py"), (sampleRule, "q/w.py")] (sampleRule, "q/w.py")).2 rfl⟩

/-- Everything surviving `takeWhile (· ≠ some aborted)` is non-aborted. -/
theorem aborted_not_mem_takeWhile (l : List (Option GpkExc)) :
    GpkExc.aborted ∉ (l.takeWhile fun o => decide (o ≠ some GpkExc.aborted)).reduceOption := by
  intro hmem
  rw [List.reduceOption_mem_iff] at hmem
  have := List.mem_takeWhile_imp hmem
  simp at this

/-- **C5**.  The execution phase appends every non-`Aborted` exception to
the aggregate list and keeps running the remaining checks; an `Aborted`
signal is never appended and immediately stops the remaining work: the
final error list is the initial one plus exactly the exceptions of the
checks before the first `Aborted`, and the aborted flag is set iff some
check raised `Aborted`. -/
theorem C5_error_isolation_and_abort (outcomes : List (Option GpkExc))
    (errors0 : List GpkExc) :
    checks_run_phase outcomes errors0 =
        (errors0 ++ (outcomes.takeWhile fun o => decide (o ≠ some GpkExc.aborted)).reduceOption,
          decide (some GpkExc.aborted ∈ outcomes)) ∧
      (GpkExc.aborted ∉ errors0 → GpkExc.aborted ∉ (checks_run_phase outcomes errors0).1) := by
  have main : ∀ (os : List (Option GpkExc)) (es : List GpkExc),
      checks_run_phase os es =
        (es ++ (os.takeWhile fun o => decide (o ≠ some GpkExc.aborted)).reduceOption,
          decide (some GpkExc.aborted ∈ os)) := by
    intro os
    induction os with
    | nil => intro es; simp [checks_run_phase]
    | cons o rest ih =>
      intro es
      cases o with
      | none => simp [checks_run_phase, error_catcher_exit, ih]
      | some e =>
        cases e with
        | aborted => simp [checks_run_phase, error_catcher_exit]
        | checkFailed c f r h => simp [checks_run_phase, error_catcher_exit, ih]
        | runtimeError m => simp [checks_run_phase, error_catcher_exit, ih]
  refine ⟨main outcomes errors0, fun h0 hmem => ?_⟩
  rw [main outcomes errors0] at hmem
  rcases List.mem_append.mp hmem with h | h
  · exact h0 h
  · exact aborted_not_mem_takeWhile outcomes h

/-- **C5** (witness). -/
theorem C5_witness :
    GpkExc.aborted ∉ ([] : List GpkExc) ∧
      GpkExc.aborted ∉ (checks_run_phase
        [none, some (GpkExc.runtimeError "boom"), some GpkExc.aborted, none] []).1 :=
  ⟨by decide,
    (C5_error_isolation_and_abort
      [none, some (GpkExc.runtimeError "boom"), some GpkExc.aborted, none] []).2 (by decide)⟩

/-- **C7**.  `deep_fnmatch` splits pattern and path on `/`, returns false
whenever the segment counts differ, and otherwise matches iff every
pattern segment `fnmatchcase`-matches the corresponding path segment;
with the four documented examples. -/
theorem C7_deep_fnmatch_segmentwise :
    (∀ p f : String, (pySplit '/' p).length ≠ (pySplit '/' f).length →
        deep_fnmatch p f = false) ∧
      (∀ p f : String, (pySplit '/' p).length = (pySplit '/' f).length →
        (deep_fnmatch p f = true ↔
          ∀ pr ∈ (pySplit '/' p).zip (pySplit '/' f), fnmatchcase pr.2 pr.1 = true)) ∧
      deep_fnmatch "foo/*.py" "foo.py" = false ∧
      deep_fnmatch "foo/*.py" "foo/bar.py" = true ∧
      deep_fnmatch "foo/*.py" "foo/bar/baz.py" = false ∧
      deep_fnmatch "*.py" "foo/bar.py" = false := by
  refine ⟨fun p f h => ?_, fun p f h => ?_, by decide, by decide, by decide, by decide⟩
  · simp [deep_fnmatch, h]
  · simp [deep_fnmatch, h, List.all_eq_true]

/-- **C7** (witness). -/
theorem C7_witness :
    ((pySplit '/' "a/b").length ≠ (pySplit '/' "c").length ∧
        deep_fnmatch "a/b" "c" = false) ∧
      ((pySplit '/' "*.py").length = (pySplit '/' "x.py").length ∧
        (deep_fnmatch "*.py" "x.py" = true ↔
          ∀ pr ∈ (pySplit '/' "*.py").zip (pySplit '/' "x.py"), fnmatchcase pr.2 pr.1 = true)) :=
  ⟨⟨by decide, C7_deep_fnmatch_segmentwise.1 "a/b" "c" (by decide)⟩,
    ⟨by decide, C7_deep_fnmatch_segmentwise.2.1 "*.py" "x.py" (by decide)⟩⟩

/-- Componentwise equality on the zipped common part holds for every list
prefix. -/
theorem zip_all_eq_true_of_prefix {β : Type} [DecidableEq β] :
    ∀ {xs ys : List β}, xs <+: ys → ((xs.zip ys).all fun ab => ab.1 == ab.2) = true := by
  intro xs
  induction xs with
  | nil => intro ys _; simp
  | cons x xs ih =>
    intro ys hpre
    obtain ⟨t, ht⟩ := hpre
    subst ht
    simp only [List.cons_append, List.zip_cons_cons, List.all_cons, Bool.and_eq_true,
      beq_self_eq_true, true_and]
    exact ih ⟨t, rfl⟩

/-- Conversely, componentwise equality on the zipped part plus the length
inequality makes the first list a prefix of the second. -/
theorem prefix_of_zip_all {β : Type} [DecidableEq β] :
    ∀ (xs ys : List β), xs.length ≤ ys.length →
      ((xs.zip ys).all fun ab => ab.1 == ab.2) = true → xs <+: ys := by
  intro xs
  induction xs with
  | nil => intro ys _ _; exact List.nil_prefix
  | cons x xs ih =>
    intro ys hlen hall
    cases ys with
    | nil => simp at hlen
    | cons y ys =>
      simp only [List.zip_cons_cons, List.all_cons, Bool.and_eq_true, beq_iff_eq] at hall
      obtain ⟨rfl, hall⟩ := hall
      simp only [List.length_cons, Nat.add_le_add_iff_right] at hlen
      obtain ⟨t, ht⟩ := ih ys hlen hall
      exact ⟨t, by simp [ht]⟩

/-- **C8**.  `possible_matches` splits both arguments on `/` discarding
empty components, produces nothing unless the prefix components lead the
path components, and otherwise yields, for each split point from
`len(prefix)` to `len(path)` components, the trailing path segments
rejoined with `/`; with the three documented examples. -/
theorem C8_possible_matches_spec :
    (∀ pre path : String,
        ¬ (non_empty (pySplit '/' pre) <+: non_empty (pySplit '/' path)) →
          possible_matches pre path = []) ∧
      (∀ pre path : String,
        non_empty (pySplit '/' pre) <+: non_empty (pySplit '/' path) →
          possible_matches pre path =
            (List.range' (non_empty (pySplit '/' pre)).length
                ((non_empty (pySplit '/' path)).length -
                  (non_empty (pySplit '/' pre)).length)).map
              (fun i => pyJoin '/' ((non_empty (pySplit '/' path)).drop i))) ∧
      possible_matches "" "bar" = ["bar"] ∧
      possible_matches "foo" "bar" = [] ∧
      possible_matches "baz" "baz/bar/foo" = ["bar/foo", "foo"] := by
  refine ⟨fun pre path hnp => ?_, fun pre path hp => ?_, by decide, by decide, by decide⟩
  · by_cases hall :
        (((non_empty (pySplit '/' pre)).zip (non_empty (pySplit '/' path))).all
          fun ab => ab.1 == ab.2) = true
    · have hlt : (non_empty (pySplit '/' path)).length <
          (non_empty (pySplit '/' pre)).length := by
        by_contra hle
        exact hnp (prefix_of_zip_all _ _ (Nat.le_of_not_lt hle) hall)
      have hz : (non_empty (pySplit '/' path)).length -
          (non_empty (pySplit '/' pre)).length = 0 := by omega
      simp [possible_matches, hall, hz]
    · simp [possible_matches, hall]
  · simp [possible_matches, zip_all_eq_true_of_prefix hp]

/-- **C8** (witness). -/
theorem C8_witness :
    (¬ (non_empty (pySplit '/' "q") <+: non_empty (pySplit '/' "z/w")) ∧
        possible_matches "q" "z/w" = []) ∧
      (non_empty (pySplit '/' "d") <+: non_empty (pySplit '/' "d/e") ∧
        possible_matches "d" "d/e" =
          (List.range' (non_empty (pySplit '/' "d")).length
              ((non_empty (pySplit '/' "d/e")).length -
                (non_empty (pySplit '/' "d")).length)).map
            (fun i => pyJoin '/' ((non_empty (pySplit '/' "d/e")).drop i))) :=
  ⟨⟨by decide, C8_possible_matches_spec.1 "q" "z/w" (by decide)⟩,
    ⟨by decide, C8_possible_matches_spec.2.1 "d" "d/e" (by decide)⟩⟩

/-- `lastSlashPos` returns a valid index holding a `'/'`. -/
theorem lastSlashPos_spec :
    ∀ (cs : List Char) (k : Nat), lastSlashPos cs = some k →
      k < cs.length ∧ cs.get? k = some '/' := by
  intro cs
  induction cs with
  | nil => intro k h; simp [lastSlashPos] at h
  | cons c cs ih =>
    intro k h
    cases hrec : lastSlashPos cs with
    | some k' =>
      simp only [lastSlashPos, hrec] at h
      obtain ⟨hlt, hget⟩ := ih k' hrec
      obtain rfl : k' + 1 = k := Option.some.inj h
      exact ⟨Nat.succ_lt_succ hlt, by simpa using hget⟩
    | none =>
      by_cases hc : c = '/'
      · simp only [lastSlashPos, hrec, hc, if_pos] at h
        obtain rfl : 0 = k := Option.some.inj h
        simp [hc]
      · simp [lastSlashPos, hrec, hc] at h

/-- `rstrip('/')` returns a prefix of its argument. -/
theorem rstripSlash_prefix_spec (l : List Char) : rstripSlash l <+: l := by
  unfold rstripSlash
  have h := List.dropWhile_suffix (l := l.reverse) (fun c => c == '/')
  have h2 := List.reverse_prefix.mpr h
  simpa using h2

/-- `rstrip('/')` only removes trailing slashes. -/
theorem rstripSlash_decompose (l : List Char) :
    ∃ m : Nat, l = rstripSlash l ++ List.replicate m '/' := by
  refine ⟨(l.reverse.takeWhile (fun c => c == '/')).length, ?_⟩
  have hall : ∀ b ∈ l.reverse.takeWhile (fun c => c == '/'), b = '/' := by
    intro b hb
    have := List.mem_takeWhile_imp hb
    simpa using this
  conv_lhs =>
    rw [← l.reverse_reverse,
      ← List.takeWhile_append_dropWhile (fun c => c == '/') l.reverse]
  rw [List.reverse_append]
  unfold rstripSlash
  congr 1
  rw [List.eq_replicate_of_mem hall, List.reverse_replicate]
  simp

/-- Dropping the trailing slashes of a slash-terminated list shortens
it. -/
theorem rstripSlash_length_of_last_slash (l : List Char)
    (h : l.reverse.head? = some '/') : (rstripSlash l).length + 1 ≤ l.length := by
  unfold rstripSlash
  cases hrev : l.reverse with
  | nil => rw [hrev] at h; simp at h
  | cons c rest =>
    rw [hrev] at h
    have hc : c = '/' := by simpa using h
    have hlen : l.length = rest.length + 1 := by
      rw [← l.reverse_reverse, hrev]; simp
    have hdw : (rest.dropWhile (fun c => c == '/')).length ≤ rest.length :=
      (List.dropWhile_suffix _).length_le
    simp only [List.dropWhile_cons, hc]
    simp only [beq_self_eq_true, if_true, List.length_reverse]
    omega

/-- `posixpath.dirname` returns a prefix of its argument. -/
theorem dirnameL_prefix (cs : List Char) : dirnameL cs <+: cs := by
  unfold dirnameL
  cases h : lastSlashPos cs <;> simp only [h] <;> split <;>
    first
      | exact (rstripSlash_prefix_spec _).trans (List.take_prefix _ _)
      | exact List.take_prefix _ _

/-- A non-empty prefix starts with the same character. -/
theorem prefix_headD {β : Type} (l₁ l₂ : List β) (h : l₁ <+: l₂) (hne : l₁ ≠ [])
    (d : β) : l₁.headD d = l₂.headD d := by
  obtain ⟨t, rfl⟩ := h
  cases l₁ with
  | nil => exact absurd rfl hne
  | cons a l => rfl

/-- On a non-empty relative path (no leading slash), `dirname` strictly
shrinks the length — the recursion of `all_directories` terminates. -/
theorem dirnameL_length_lt (cs : List Char) (hne : cs ≠ [])
    (hh : cs.headD ' ' ≠ '/') : (dirnameL cs).length < cs.length := by
  unfold dirnameL
  cases h : lastSlashPos cs with
  | none =>
    simp only [h, List.take_zero]
    have : cs.length ≠ 0 := fun h0 => hne (List.length_eq_zero.mp h0)
    simp
    omega
  | some k =>
    obtain ⟨hk, hget⟩ := lastSlashPos_spec cs k h
    simp only [h]
    have hlen : (cs.take (k + 1)).length = k + 1 := by
      rw [List.length_take]; omega
    have hne' : cs.take (k + 1) ≠ [] := by
      intro h0
      rw [h0] at hlen
      simp at hlen
    have h0get : (cs.take (k + 1)).headD ' ' ≠ '/' := by
      rw [prefix_headD _ _ (List.take_prefix _ _) hne' ' ']
      exact hh
    have hnall : ¬((cs.take (k + 1)).all (fun c => c == '/')) = true := by
      intro hall
      refine h0get ?_
      cases htk : cs.take (k + 1) with
      | nil => exact absurd htk hne'
      | cons c0 t =>
        rw [htk] at hall
        simp only [List.all_cons, Bool.and_eq_true, beq_iff_eq] at hall
        simp [hall.1]
    rw [if_pos ⟨hne', hnall⟩]
    have hlast : (cs.take (k + 1)).reverse.head? = some '/' := by
      rw [List.head?_reverse]
      rw [List.getLast?_eq_get?]
      rw [hlen]
      simp only [Nat.add_sub_cancel]
      rw [List.get?_take (Nat.lt_succ_self k)]
      exact hget
    have := rstripSlash_length_of_last_slash _ hlast
    omega

/-- `dirname` yields `'.'` only on paths that start with `./`. -/
theorem dirnameL_eq_dot (cs : List Char) (h : dirnameL cs = ['.']) :
    ['.', '/'] <+: cs := by
  unfold dirnameL at h
  cases hsl : lastSlashPos cs with
  | none => simp [hsl] at h
  | some k =>
    obtain ⟨hk, hget⟩ := lastSlashPos_spec cs k hsl
    simp only [hsl] at h
    have hlen : (cs.take (k + 1)).length = k + 1 := by
      rw [List.length_take]; omega
    have hlast : (cs.take (k + 1)).get? k = some '/' := by
      rw [List.get?_take (Nat.lt_succ_self k)]
      exact hget
    by_cases hcond : cs.take (k + 1) ≠ [] ∧ ¬((cs.take (k + 1)).all (fun c => c == '/')) = true
    · rw [if_pos hcond] at h
      obtain ⟨m, hdec⟩ := rstripSlash_decompose (cs.take (k + 1))
      rw [h] at hdec
      cases m with
      | zero =>
        rw [List.replicate_zero, List.append_nil] at hdec
        rw [hdec] at hlen hlast
        simp at hlen
        rw [hlen] at hlast
        simp at hlast
      | succ m' =>
        have hpre : ['.', '/'] <+: cs.take (k + 1) := by
          rw [hdec]
          exact ⟨List.replicate m' '/', by simp [List.replicate_succ]⟩
        exact hpre.trans (List.take_prefix _ _)
    · rw [if_neg hcond] at h
      push_neg at hcond
      by_cases hnil : cs.take (k + 1) = []
      · rw [hnil] at h; simp at h
      · have hall := hcond hnil
        rw [h] at hall
        simp at hall

/-- `all_directories` terminates on every relative path, and — except on
`''`, `'.'` and paths led by a `./` component — its result ends with the
empty-string root sentinel. -/
theorem adf_terminates_rel :
    ∀ (n : Nat) (p : String), p.data.headD ' ' ≠ '/' → p.data.length < n →
      ∃ l, all_directories_fuel n p = some l ∧
        (p ≠ "" → p ≠ "." → ¬ (['.', '/'] <+: p.data) →
          l ≠ [] ∧ l.getLast? = some "") := by
  intro n
  induction n with
  | zero => intro p _ h; omega
  | succ m ih =>
    intro p hrel hlen
    by_cases hbase : p = "." ∨ p = ""
    · refine ⟨[], by simp [all_directories_fuel, hbase], fun h1 h2 _ => ?_⟩
      rcases hbase with h | h
      · exact absurd h h2
      · exact absurd h h1
    · have hbase' := hbase
      push_neg at hbase'
      have hpne : p.data ≠ [] := by
        intro h0
        exact hbase'.2 (String.ext h0)
      have hshrink := dirnameL_length_lt p.data hpne hrel
      have hdata : (dirname p).data = dirnameL p.data := rfl
      have hdpre : (dirname p).data <+: p.data := by rw [hdata]; exact dirnameL_prefix _
      have hdrel : (dirname p).data.headD ' ' ≠ '/' := by
        by_cases hd0 : (dirname p).data = []
        · rw [hd0]; simp
        · rw [prefix_headD _ _ hdpre hd0 ' ']; exact hrel
      have hdlen : (dirname p).data.length < m := by
        rw [hdata]; omega
      obtain ⟨rest, hrest, hrestP⟩ := ih (dirname p) hdrel hdlen
      refine ⟨dirname p :: rest, ?_, fun _ _ h3 => ?_⟩
      · simp [all_directories_fuel, hbase, hrest]
      · by_cases hdempty : dirname p = ""
        · have hm : m ≠ 0 := by omega
          obtain ⟨m', rfl⟩ := Nat.exists_eq_succ_of_ne_zero hm
          rw [hdempty] at hrest
          have hrest' : rest = [] := by
            simpa [all_directories_fuel] using hrest.symm
          subst hrest'
          exact ⟨by simp, by simp [hdempty]⟩
        · have hddot : dirname p ≠ "." := by
            intro hdot
            refine h3 (dirnameL_eq_dot p.data ?_)
            rw [← hdata, hdot]
          have hdds : ¬ (['.', '/'] <+: (dirname p).data) := fun hp => h3 (hp.trans hdpre)
          obtain ⟨hne, hlast⟩ := hrestP hdempty hddot hdds
          refine ⟨by simp, ?_⟩
          cases rest with
          | nil => exact absurd rfl hne
          | cons r rs => rw [List.getLast?_cons_cons]; exact hlast

/-- The parent of the root is the root: `all_directories('/')` never
terminates, whatever the fuel. -/
theorem adf_root_none : ∀ fuel : Nat, all_directories_fuel fuel "/" = none := by
  intro fuel
  induction fuel with
  | zero => rfl
  | succ m ih =>
    have hd : dirname "/" = "/" := rfl
    simp [all_directories_fuel, hd, ih]

/-- **C10** (counterexample).  `./a` is a relative path (it does not begin
with `/`), yet `all_directories('./a')` is `['.']`, which does not end
with the empty-string root sentinel. -/
theorem C10_counterexample_dot_slash :
    ("./a".data.headD ' ' ≠ '/') ∧
      all_directories "./a" = ["."] ∧
      (all_directories "./a").getLast? ≠ some "" :=
  ⟨by decide, rfl, by decide⟩

/-- **C10** (amended).  For every relative file path (one not beginning
with `/`), `all_directories` terminates — fuel `|p| + 1` suffices; when
the path is moreover non-empty, not `'.'`, and not led by a `./`
component, the resulting list of ancestor prefixes is non-empty and ends
with the empty string (the root sentinel); a path led by `./` ends with
`'.'` instead.  Termination indeed fails for inputs whose parent equals
the input itself, such as the absolute root `/`. -/
theorem C10_amended_all_directories (p : String) :
    (p.data.headD ' ' ≠ '/' →
        (all_directories_fuel (p.data.length + 1) p).isSome = true) ∧
      (p.data.headD ' ' ≠ '/' → p ≠ "" → p ≠ "." → ¬ (['.', '/'] <+: p.data) →
        all_directories p ≠ [] ∧ (all_directories p).getLast? = some "") ∧
      (∀ fuel : Nat, all_directories_fuel fuel "/" = none) := by
  refine ⟨fun h => ?_, fun h h1 h2 h3 => ?_, adf_root_none⟩
  · obtain ⟨l, hl, _⟩ := adf_terminates_rel (p.data.length + 1) p h (by omega)
    have hl' : all_directories_fuel (p.data.length + 1) p = some l := hl
    simp only [hl', Option.isSome_some]
  · obtain ⟨l, hl, hP⟩ := adf_terminates_rel (p.data.length + 1) p h (by omega)
    have hres := hP h1 h2 h3
    unfold all_directories
    rw [hl]
    simpa using hres

/-- **C10** (witness for the amended theorem). -/
theorem C10_witness :
    ("a/b.py".data.headD ' ' ≠ '/' ∧
        (all_directories_fuel ("a/b.py".data.length + 1) "a/b.py").isSome = true) ∧
      (all_directories "a/b.py" ≠ [] ∧ (all_directories "a/b.py").getLast? = some "") ∧
      all_directories_fuel 3 "/" = none :=
  ⟨⟨by decide, (C10_amended_all_directories "a/b.py").1 (by decide)⟩,
    (C10_amended_all_directories "a/b.py").2.1 (by decide) (by decide) (by decide)
      (by decide),
    (C10_amended_all_directories "a/b.py").2.2 3⟩

/-- **C6** (code bug).  `run_script` first sets the child `PYTHONPATH` to
`internal_path + ':' + env.get('PYTHONPATH', '')` and then copies *every*
caller-supplied binding over the result, so a caller-supplied `PYTHONPATH`
overwrites the helper path, contradicting the intent of the preceding
merge (and the claim that the helper path always remains present). -/
theorem C6_caller_pythonpath_clobbers_helper_path :
    build_run_env (fun v => if v = "HOME" then some "/root" else none) "/gpk/internal"
        [("PYTHONPATH", "/custom")] "PYTHONPATH" = some "/custom" ∧
      build_run_env (fun v => if v = "HOME" then some "/root" else none) "/gpk/internal"
        [] "PYTHONPATH" = some "/gpk/internal:" := by
  exact ⟨rfl, rfl⟩

end Gpk

namespace Gpk

/-! ### C9 development, part 1: diagonal runs, extension loops, index
lists -/

theorem dRun_le (pres : Nat → Bool) (lo : Nat) : ∀ t, dRun pres lo t ≤ t + 1 - lo := by
  intro t
  induction t with
  | zero =>
    simp only [dRun]
    split
    · rename_i h
      simp only [Bool.and_eq_true, decide_eq_true_eq] at h
      omega
    · omega
  | succ t ih =>
    simp only [dRun]
    split
    · rename_i h
      simp only [Bool.and_eq_true, decide_eq_true_eq] at h
      split
      · omega
      · omega
    · omega

theorem dRun_zero_of_lt (pres : Nat → Bool) (lo t : Nat) (h : t < lo) :
    dRun pres lo t = 0 := by
  cases t with
  | zero =>
    simp only [dRun]
    rw [if_neg]
    simp only [Bool.and_eq_true, decide_eq_true_eq]
    omega
  | succ t =>
    simp only [dRun]
    rw [if_neg]
    simp only [Bool.and_eq_true, decide_eq_true_eq]
    omega

theorem dRun_zero_of_not_pres (pres : Nat → Bool) (lo t : Nat) (h : pres t = false) :
    dRun pres lo t = 0 := by
  cases t with
  | zero => simp [dRun, h]
  | succ t => simp [dRun, h]

theorem dRun_succ_eq (pres : Nat → Bool) (lo t : Nat) (hlo : lo ≤ t)
    (hp : pres (t + 1) = true) : dRun pres lo (t + 1) = dRun pres lo t + 1 := by
  simp only [dRun]
  rw [if_pos, if_neg]
  · omega
  · simp only [Bool.and_eq_true, decide_eq_true_eq]
    exact ⟨by omega, hp⟩

theorem dRun_at_lo (pres : Nat → Bool) (lo : Nat) (hp : pres lo = true) :
    dRun pres lo lo = 1 := by
  cases lo with
  | zero => simp [dRun, hp]
  | succ l =>
    simp only [dRun]
    rw [if_pos]
    · simp
    · simp only [Bool.and_eq_true, decide_eq_true_eq]
      exact ⟨by omega, hp⟩

theorem extLen_le (p : Nat → Bool) : ∀ (m t : Nat), extLen p t m ≤ m := by
  intro m
  induction m with
  | zero => intro t; simp [extLen]
  | succ m ih =>
    intro t
    simp only [extLen]
    split
    · exact Nat.succ_le_succ (ih (t + 1))
    · omega

theorem extLen_pos (p : Nat → Bool) (t m : Nat) (hm : 0 < m) (hp : p t = true) :
    0 < extLen p t m := by
  cases m with
  | zero => omega
  | succ m => simp [extLen, hp]

theorem flmJLoop_append (i : Nat) (row : Nat → Nat) :
    ∀ (u v : List Nat) (acc : Nat → Nat) (best : Nat × Nat × Nat),
      flmJLoop i row (u ++ v) acc best =
        flmJLoop i row v (flmJLoop i row u acc best).1 (flmJLoop i row u acc best).2 := by
  intro u
  induction u with
  | nil => intro v acc best; rfl
  | cons j u ih =>
    intro v acc best
    simp only [List.cons_append, flmJLoop]
    exact ih v _ _

theorem mem_b2j_filter {α : Type} [DecidableEq α] (junk : α → Bool) (L : List α)
    (x : α) (lo hi j : Nat) :
    (j ∈ (b2j junk L x).filter (fun j => decide (lo ≤ j) && decide (j < hi))) ↔
      (inB2J junk L x = true ∧ L.get? j = some x ∧ lo ≤ j ∧ j < hi) := by
  unfold b2j
  by_cases hx : inB2J junk L x = true
  · rw [if_pos hx]
    unfold indicesOf
    simp only [List.mem_filter, List.mem_range, decide_eq_true_eq, Bool.and_eq_true,
      hx, true_and]
    constructor
    · rintro ⟨⟨_, hget⟩, hlo, hhi⟩
      exact ⟨by simpa using hget, hlo, hhi⟩
    · rintro ⟨hget, hlo, hhi⟩
      refine ⟨⟨?_, by simpa using hget⟩, hlo, hhi⟩
      by_contra hlen
      rw [List.get?_eq_none.mpr (by omega)] at hget
      exact Option.noConfusion hget
  · rw [if_neg hx]
    simp [hx]

theorem b2j_filter_sorted {α : Type} [DecidableEq α] (junk : α → Bool) (L : List α)
    (x : α) (lo hi : Nat) :
    List.Pairwise (· < ·)
      ((b2j junk L x).filter (fun j => decide (lo ≤ j) && decide (j < hi))) := by
  unfold b2j
  split
  · exact ((List.pairwise_lt_range _).filter _).filter _
  · simp

theorem sorted_split_le (i : Nat) :
    ∀ l : List Nat, List.Pairwise (· < ·) l →
      l = l.filter (fun j => decide (j ≤ i)) ++ l.filter (fun j => !decide (j ≤ i)) := by
  intro l
  induction l with
  | nil => simp
  | cons a l ih =>
    intro hp
    obtain ⟨hhead, htail⟩ := List.pairwise_cons.mp hp
    by_cases ha : a ≤ i
    · rw [List.filter_cons_of_pos (by simp [ha]), List.filter_cons_of_neg (by simp [ha])]
      rw [List.cons_append]
      congr 1
      exact ih htail
    · have hall : ∀ b ∈ l, ¬ (b ≤ i) := fun b hb => by
        have := hhead b hb
        omega
      rw [List.filter_cons_of_neg (by simp [ha]), List.filter_cons_of_pos (by simp [ha])]
      rw [List.filter_eq_nil.mpr (fun b hb => by simp [hall b hb]), List.nil_append]
      congr 1
      exact (List.filter_eq_self.mpr (fun b hb => by simp [hall b hb])).symm

end Gpk

namespace Gpk

/-! ### C9 development, part 2: the inner j-loop keeps the best block
diagonal -/

theorem presF_of_get {α : Type} [DecidableEq α] (junk : α → Bool) (L : List α)
    (j : Nat) (x : α) (h : L.get? j = some x) : presF junk L j = inB2J junk L x := by
  unfold presF
  rw [h]

theorem dRun_pos (pres : Nat → Bool) (lo t : Nat) (hp : pres t = true) (hlo : lo ≤ t) :
    1 ≤ dRun pres lo t := by
  rcases Nat.eq_or_lt_of_le hlo with h | h
  · rw [← h, dRun_at_lo pres lo (by rwa [h])]
  · cases t with
    | zero => omega
    | succ t => rw [dRun_succ_eq pres lo t (by omega) hp]; omega

theorem dPrev_succ (pres : Nat → Bool) (lo i : Nat) :
    dPrev pres lo (i + 1) = if lo ≤ i then dRun pres lo i else 0 := rfl

theorem dPrev_eq_zero (pres : Nat → Bool) (lo i : Nat) (h : i ≤ lo) :
    dPrev pres lo i = 0 := by
  cases i with
  | zero => rfl
  | succ t => simp only [dPrev]; rw [if_neg (by omega)]

theorem dPrev_eq_of_lt (pres : Nat → Bool) (lo i : Nat) (h : lo < i) :
    dPrev pres lo i = dRun pres lo (i - 1) := by
  cases i with
  | zero => omega
  | succ t => simp only [dPrev]; rw [if_pos (by omega)]; rfl

/-- Processing index-table entries `j ≤ i` at outer step `i`: the best
block stays diagonal and within bounds, its size only grows, the new row
entries respect the run bounds, and — once the diagonal `j = i` has been
processed — the new row holds the exact diagonal run at `i` and the best
size dominates it. -/
theorem flmJLoop_le_spec {α : Type} [DecidableEq α] (junk : α → Bool) (L : List α)
    (lo i : Nat) (x : α) (row : Nat → Nat)
    (hio : lo ≤ i) (hx : L.get? i = some x)
    (hrow1 : ∀ j, row j ≤ dRun (presF junk L) lo j)
    (hrow2 : ∀ j, row j ≤ dPrev (presF junk L) lo i)
    (hrow3 : lo < i → row (i - 1) = dRun (presF junk L) lo (i - 1)) :
    ∀ (js : List Nat) (acc : Nat → Nat) (best : Nat × Nat × Nat),
      (∀ j ∈ js, inB2J junk L x = true ∧ L.get? j = some x ∧ lo ≤ j ∧ j ≤ i) →
      BestMid (presF junk L) lo i best →
      (∀ j, acc j ≤ dRun (presF junk L) lo j) →
      (∀ j, acc j ≤ dRun (presF junk L) lo i) →
      BestMid (presF junk L) lo i (flmJLoop i row js acc best).2 ∧
        best.2.2 ≤ (flmJLoop i row js acc best).2.2.2 ∧
        (∀ j, (flmJLoop i row js acc best).1 j ≤ dRun (presF junk L) lo j) ∧
        (∀ j, (flmJLoop i row js acc best).1 j ≤ dRun (presF junk L) lo i) ∧
        (∀ j, j ∉ js → (flmJLoop i row js acc best).1 j = acc j) ∧
        (i ∈ js → (flmJLoop i row js acc best).1 i = dRun (presF junk L) lo i ∧
          dRun (presF junk L) lo i ≤ (flmJLoop i row js acc best).2.2.2) := by
  intro js
  induction js with
  | nil =>
    intro acc best _ hbest hacc1 hacc2
    simp only [flmJLoop]
    refine ⟨hbest, Nat.le_refl _, hacc1, hacc2, fun j _ => ?_, fun h => ?_⟩
    · trivial
    · simp at h
  | cons j js ih =>
    intro acc best hjs hbest hacc1 hacc2
    obtain ⟨hinb, hgetj, hloj, hji⟩ := hjs j (List.mem_cons_self j js)
    have hpresj : presF junk L j = true := by rw [presF_of_get junk L j x hgetj]; exact hinb
    have hpresi : presF junk L i = true := by rw [presF_of_get junk L i x hx]; exact hinb
    have hdi1 : 1 ≤ dRun (presF junk L) lo i := dRun_pos _ lo i hpresi hio
    have hdile : dRun (presF junk L) lo i ≤ i + 1 - lo := dRun_le _ lo i
    have hdjle : dRun (presF junk L) lo j ≤ j + 1 - lo := dRun_le _ lo j
    set k := (if j = 0 then 0 else row (j - 1)) + 1 with hk
    have hkdj : k ≤ dRun (presF junk L) lo j := by
      by_cases hj0 : j = 0
      · subst hj0
        have hlo0 : lo = 0 := by omega
        subst hlo0
        have hat := dRun_at_lo (presF junk L) 0 hpresj
        rw [hk, if_pos rfl]
        omega
      · rcases Nat.eq_or_lt_of_le hloj with h | h
        · have hz : row (j - 1) = 0 := by
            have h1 := hrow1 (j - 1)
            have h2 := dRun_zero_of_lt (presF junk L) lo (j - 1) (by omega)
            omega
          subst h
          have hat := dRun_at_lo (presF junk L) lo hpresj
          rw [hk, if_neg hj0]
          omega
        · have hj1 : j - 1 + 1 = j := by omega
          have hstep := dRun_succ_eq (presF junk L) lo (j - 1) (by omega) (by rwa [hj1])
          rw [hj1] at hstep
          have := hrow1 (j - 1)
          rw [hk, if_neg hj0]
          omega
    have hkdi : k ≤ dRun (presF junk L) lo i := by
      have hrk : (if j = 0 then 0 else row (j - 1)) ≤ dPrev (presF junk L) lo i := by
        split
        · omega
        · exact hrow2 (j - 1)
      rcases Nat.eq_or_lt_of_le hio with h | h
      · have hpz := dPrev_eq_zero (presF junk L) lo i (by omega)
        omega
      · have hpe := dPrev_eq_of_lt (presF junk L) lo i h
        have hi1 : i - 1 + 1 = i := by omega
        have hstep := dRun_succ_eq (presF junk L) lo (i - 1) (by omega) (by rwa [hi1])
        rw [hi1] at hstep
        omega
    have hki : j = i → k = dRun (presF junk L) lo i := by
      intro hji'
      subst hji'
      by_cases hj0 : j = 0
      · subst hj0
        have hlo0 : lo = 0 := by omega
        subst hlo0
        have hat := dRun_at_lo (presF junk L) 0 hpresj
        rw [hk, if_pos rfl]
        omega
      · rcases Nat.eq_or_lt_of_le hio with h | h
        · have hz : row (j - 1) = 0 := by
            have h1 := hrow2 (j - 1)
            have h2 := dPrev_eq_zero (presF junk L) lo j (by omega)
            omega
          subst h
          have hat := dRun_at_lo (presF junk L) lo hpresj
          rw [hk, if_neg hj0]
          omega
        · have hj1 : j - 1 + 1 = j := by omega
          have hstep := dRun_succ_eq (presF junk L) lo (j - 1) (by omega) (by rwa [hj1])
          rw [hj1] at hstep
          have h3 := hrow3 h
          rw [hk, if_neg hj0]
          omega
    obtain ⟨hbd, hblo, hbhi, hbrun, hbz⟩ := hbest
    have hmaxle : i + 1 ≤ max lo (i + 1) := Nat.le_max_right lo (i + 1)
    have hbest' : BestMid (presF junk L) lo i
        (if best.2.2 < k then (i + 1 - k, j + 1 - k, k) else best) := by
      split
      · rename_i hup
        have hji2 : j = i := by
          rcases Nat.lt_or_ge j i with hlt | hge
          · exact absurd hup (by have := hbrun j hloj hlt; omega)
          · omega
        subst hji2
        refine ⟨rfl, ?_, ?_, fun t hlt hti => ?_, ?_⟩
        · show lo ≤ j + 1 - k
          omega
        · show (j + 1 - k) + k ≤ max lo (j + 1)
          omega
        · show dRun (presF junk L) lo t ≤ k
          have := hbrun t hlt hti
          omega
        · show k = 0 → j + 1 - k = lo
          omega
      · exact ⟨hbd, hblo, hbhi, hbrun, hbz⟩
    have hmono' : best.2.2 ≤
        (if best.2.2 < k then (i + 1 - k, j + 1 - k, k) else best).2.2 := by
      split
      · show best.2.2 ≤ k
        omega
      · exact Nat.le_refl _
    have hdiK : j = i →
        dRun (presF junk L) lo i ≤
          (if best.2.2 < k then (i + 1 - k, j + 1 - k, k) else best).2.2 := by
      intro hji'
      have hexact := hki hji'
      split
      · show dRun (presF junk L) lo i ≤ k
        omega
      · rename_i hnup
        omega
    have hacc1' : ∀ j', (fun j' => if j' = j then k else acc j') j' ≤
        dRun (presF junk L) lo j' := by
      intro j'
      by_cases h : j' = j
      · subst h; simpa using hkdj
      · simpa [h] using hacc1 j'
    have hacc2' : ∀ j', (fun j' => if j' = j then k else acc j') j' ≤
        dRun (presF junk L) lo i := by
      intro j'
      by_cases h : j' = j
      · subst h; simpa using hkdi
      · simpa [h] using hacc2 j'
    have hres := ih (fun j' => if j' = j then k else acc j')
      (if best.2.2 < k then (i + 1 - k, j + 1 - k, k) else best)
      (fun j' hj' => hjs j' (List.mem_cons_of_mem j hj')) hbest' hacc1' hacc2'
    obtain ⟨r1, r2, r3, r4, r5, r6⟩ := hres
    simp only [flmJLoop]
    rw [← hk]
    refine ⟨r1, by omega, r3, r4, fun j' hj' => ?_, fun hi' => ?_⟩
    · have hne : j' ∉ js := fun h => hj' (List.mem_cons_of_mem j h)
      have hnej : j' ≠ j := fun h => hj' (h ▸ List.mem_cons_self j js)
      rw [r5 j' hne]
      simp [hnej]
    · rcases List.mem_cons.mp hi' with hji' | hii
      · have hkval := hki hji'.symm
        constructor
        · by_cases hins : i ∈ js
          · exact (r6 hins).1
          · rw [r5 i hins]
            show (if i = j then k else acc i) = dRun (presF junk L) lo i
            rw [if_pos hji']
            exact hkval
        · have := hdiK hji'.symm
          omega
      · exact r6 hii

end Gpk

namespace Gpk

/-- Processing index-table entries `j > i` at outer step `i`: once the
diagonal has been processed the best size already dominates every new
chain length, so the best block never moves off the diagonal. -/
theorem flmJLoop_gt_spec {α : Type} [DecidableEq α] (junk : α → Bool) (L : List α)
    (lo i : Nat) (x : α) (row : Nat → Nat)
    (hio : lo ≤ i) (hx : L.get? i = some x)
    (hrow1 : ∀ j, row j ≤ dRun (presF junk L) lo j)
    (hrow2 : ∀ j, row j ≤ dPrev (presF junk L) lo i) :
    ∀ (js : List Nat) (acc : Nat → Nat) (best : Nat × Nat × Nat),
      (∀ j ∈ js, inB2J junk L x = true ∧ L.get? j = some x ∧ lo ≤ j ∧ i < j) →
      (js ≠ [] → dRun (presF junk L) lo i ≤ best.2.2) →
      (∀ j, acc j ≤ dRun (presF junk L) lo j) →
      (∀ j, acc j ≤ dRun (presF junk L) lo i) →
      (flmJLoop i row js acc best).2 = best ∧
        (∀ j, (flmJLoop i row js acc best).1 j ≤ dRun (presF junk L) lo j) ∧
        (∀ j, (flmJLoop i row js acc best).1 j ≤ dRun (presF junk L) lo i) ∧
        (∀ j, j ∉ js → (flmJLoop i row js acc best).1 j = acc j) := by
  intro js
  induction js with
  | nil =>
    intro acc best _ _ hacc1 hacc2
    exact ⟨rfl, hacc1, hacc2, fun _ _ => rfl⟩
  | cons j js ih =>
    intro acc best hjs hbs hacc1 hacc2
    obtain ⟨hinb, hgetj, hloj, hij⟩ := hjs j (List.mem_cons_self j js)
    have hpresj : presF junk L j = true := by rw [presF_of_get junk L j x hgetj]; exact hinb
    have hpresi : presF junk L i = true := by rw [presF_of_get junk L i x hx]; exact hinb
    have hbs' := hbs (by simp)
    set k := (if j = 0 then 0 else row (j - 1)) + 1 with hk
    have hkdi : k ≤ dRun (presF junk L) lo i := by
      have hrk : (if j = 0 then 0 else row (j - 1)) ≤ dPrev (presF junk L) lo i := by
        split
        · omega
        · exact hrow2 (j - 1)
      have hdi1 : 1 ≤ dRun (presF junk L) lo i := dRun_pos _ lo i hpresi hio
      rcases Nat.eq_or_lt_of_le hio with h | h
      · have hpz := dPrev_eq_zero (presF junk L) lo i (by omega)
        omega
      · have hpe := dPrev_eq_of_lt (presF junk L) lo i h
        have hi1 : i - 1 + 1 = i := by omega
        have hstep := dRun_succ_eq (presF junk L) lo (i - 1) (by omega) (by rwa [hi1])
        rw [hi1] at hstep
        omega
    have hkdj : k ≤ dRun (presF junk L) lo j := by
      have hj0 : j ≠ 0 := by omega
      have hj1 : j - 1 + 1 = j := by omega
      have hstep := dRun_succ_eq (presF junk L) lo (j - 1) (by omega) (by rwa [hj1])
      rw [hj1] at hstep
      have := hrow1 (j - 1)
      rw [hk, if_neg hj0]
      omega
    have hnup : ¬ (best.2.2 < k) := by omega
    have hacc1' : ∀ j', (fun j' => if j' = j then k else acc j') j' ≤
        dRun (presF junk L) lo j' := by
      intro j'
      by_cases h : j' = j
      · subst h; simpa using hkdj
      · simpa [h] using hacc1 j'
    have hacc2' : ∀ j', (fun j' => if j' = j then k else acc j') j' ≤
        dRun (presF junk L) lo i := by
      intro j'
      by_cases h : j' = j
      · subst h; simpa using hkdi
      · simpa [h] using hacc2 j'
    have hres := ih (fun j' => if j' = j then k else acc j') best
      (fun j' hj' => hjs j' (List.mem_cons_of_mem j hj'))
      (fun _ => hbs') hacc1' hacc2'
    obtain ⟨r1, r2, r3, r4⟩ := hres
    simp only [flmJLoop]
    rw [← hk, if_neg hnup]
    refine ⟨r1, r2, r3, fun j' hj' => ?_⟩
    have hne : j' ∉ js := fun h => hj' (List.mem_cons_of_mem j h)
    have hnej : j' ≠ j := fun h => hj' (h ▸ List.mem_cons_self j js)
    rw [r4 j' hne]
    simp [hnej]

/-- One full outer step of `find_longest_match` on equal sequences
preserves the row and best-block invariants. -/
theorem flm_step {α : Type} [DecidableEq α] (junk : α → Bool) (L : List α)
    (lo hi i : Nat) (row : Nat → Nat) (best : Nat × Nat × Nat)
    (hio : lo ≤ i) (hihi : i < hi) (hhn : hi ≤ L.length)
    (hrow : RowInv (presF junk L) lo i row)
    (hbest : BestInv (presF junk L) lo i best)
    (js : List Nat)
    (hjs : js = (match L.get? i with
      | some x => (b2j junk L x).filter (fun j => decide (lo ≤ j) && decide (j < hi))
      | none => [])) :
    RowInv (presF junk L) lo (i + 1) (flmJLoop i row js (fun _ => 0) best).1 ∧
      BestInv (presF junk L) lo (i + 1) (flmJLoop i row js (fun _ => 0) best).2 := by
  obtain ⟨hrow1, hrow2, hrow3⟩ := hrow
  obtain ⟨x, hx⟩ : ∃ x, L.get? i = some x := by
    cases hgi : L.get? i with
    | none => exact absurd (List.get?_eq_none.mp hgi) (by omega)
    | some x => exact ⟨x, rfl⟩
  rw [hx] at hjs
  have hsorted : List.Pairwise (· < ·) js := hjs ▸ b2j_filter_sorted junk L x lo hi
  have hsplit := sorted_split_le i js hsorted
  have hbm : BestMid (presF junk L) lo i best := by
    obtain ⟨h1, h2, h3, h4, h5⟩ := hbest
    refine ⟨h1, h2, ?_, h4, h5⟩
    have hmx : max lo i ≤ max lo (i + 1) := by omega
    omega
  have hmemle : ∀ j ∈ js.filter (fun j => decide (j ≤ i)),
      inB2J junk L x = true ∧ L.get? j = some x ∧ lo ≤ j ∧ j ≤ i := by
    intro j hj
    rw [List.mem_filter] at hj
    obtain ⟨hj1, hj2⟩ := hj
    rw [hjs] at hj1
    have hm := (mem_b2j_filter junk L x lo hi j).mp hj1
    exact ⟨hm.1, hm.2.1, hm.2.2.1, by simpa using hj2⟩
  have hmemgt : ∀ j ∈ js.filter (fun j => !decide (j ≤ i)),
      inB2J junk L x = true ∧ L.get? j = some x ∧ lo ≤ j ∧ i < j := by
    intro j hj
    rw [List.mem_filter] at hj
    obtain ⟨hj1, hj2⟩ := hj
    rw [hjs] at hj1
    have hm := (mem_b2j_filter junk L x lo hi j).mp hj1
    refine ⟨hm.1, hm.2.1, hm.2.2.1, ?_⟩
    have : ¬ (j ≤ i) := by simpa using hj2
    omega
  have hiin : presF junk L i = true → i ∈ js.filter (fun j => decide (j ≤ i)) := by
    intro hp
    rw [List.mem_filter]
    refine ⟨?_, by simp⟩
    rw [hjs, mem_b2j_filter]
    refine ⟨?_, hx, hio, hihi⟩
    rwa [presF_of_get junk L i x hx] at hp
  have hLE := flmJLoop_le_spec junk L lo i x row hio hx hrow1 hrow2 hrow3
    (js.filter (fun j => decide (j ≤ i))) (fun _ => 0) best hmemle hbm
    (fun _ => Nat.zero_le _) (fun _ => Nat.zero_le _)
  obtain ⟨l1, l2, l3, l4, l5, l6⟩ := hLE
  have hgtbs : js.filter (fun j => !decide (j ≤ i)) ≠ [] →
      dRun (presF junk L) lo i ≤
        (flmJLoop i row (js.filter (fun j => decide (j ≤ i))) (fun _ => 0) best).2.2.2 := by
    intro hne
    obtain ⟨j0, hj0⟩ := List.exists_mem_of_ne_nil _ hne
    have hj0p := hmemgt j0 hj0
    have hp : presF junk L i = true := by
      rw [presF_of_get junk L i x hx]; exact hj0p.1
    exact (l6 (hiin hp)).2
  have hGT := flmJLoop_gt_spec junk L lo i x row hio hx hrow1 hrow2
    (js.filter (fun j => !decide (j ≤ i)))
    (flmJLoop i row (js.filter (fun j => decide (j ≤ i))) (fun _ => 0) best).1
    (flmJLoop i row (js.filter (fun j => decide (j ≤ i))) (fun _ => 0) best).2
    hmemgt hgtbs l3 l4
  obtain ⟨g1, g2, g3, g4⟩ := hGT
  have hkey : flmJLoop i row js (fun _ => 0) best =
      flmJLoop i row (js.filter (fun j => !decide (j ≤ i)))
        (flmJLoop i row (js.filter (fun j => decide (j ≤ i))) (fun _ => 0) best).1
        (flmJLoop i row (js.filter (fun j => decide (j ≤ i))) (fun _ => 0) best).2 := by
    conv_lhs => rw [hsplit]
    rw [flmJLoop_append]
  rw [hkey]
  have hdp : dPrev (presF junk L) lo (i + 1) = dRun (presF junk L) lo i := by
    rw [dPrev_succ, if_pos hio]
  have hinotgt : i ∉ js.filter (fun j => !decide (j ≤ i)) := by
    rw [List.mem_filter]
    simp
  constructor
  · refine ⟨g2, ?_, fun _ => ?_⟩
    · intro j
      rw [hdp]
      exact g3 j
    · have hi1 : i + 1 - 1 = i := by omega
      rw [hi1]
      by_cases hp : presF junk L i = true
      · rw [g4 i hinotgt]
        exact (l6 (hiin hp)).1
      · have hpf : presF junk L i = false := by
          cases hb : presF junk L i
          · rfl
          · exact absurd hb hp
        have hz := dRun_zero_of_not_pres (presF junk L) lo i hpf
        have := g2 i
        omega
  · rw [g1]
    obtain ⟨m1, m2, m3, m4, m5⟩ := l1
    refine ⟨m1, m2, m3, fun t hlt hti => ?_, m5⟩
    rcases Nat.lt_or_ge t i with h | h
    · exact m4 t hlt h
    · have hti' : t = i := by omega
      subst hti'
      by_cases hp : presF junk L t = true
      · exact (l6 (hiin hp)).2
      · have hpf : presF junk L t = false := by
          cases hb : presF junk L t
          · rfl
          · exact absurd hb hp
        have hz := dRun_zero_of_not_pres (presF junk L) lo t hpf
        omega

end Gpk

namespace Gpk

theorem extLen_zero (p : Nat → Bool) (t m : Nat) (hp : p t = false) : extLen p t m = 0 := by
  cases m with
  | zero => rfl
  | succ m => simp [extLen, hp]

/-- The outer loop of `find_longest_match` on equal sequences: starting
from the trivial state, the final best block is diagonal and bounded. -/
theorem flmILoop_inv {α : Type} [DecidableEq α] (junk : α → Bool) (L : List α)
    (lo hi : Nat) (hhn : hi ≤ L.length) :
    ∀ (cnt i : Nat) (row : Nat → Nat) (best : Nat × Nat × Nat),
      lo ≤ i → i + cnt = hi →
      RowInv (presF junk L) lo i row → BestInv (presF junk L) lo i best →
      BestInv (presF junk L) lo hi
        (flmILoop L L junk lo hi (List.range' i cnt) row best) := by
  intro cnt
  induction cnt with
  | zero =>
    intro i row best hlo hsum hrow hbest
    have hih : i = hi := by omega
    subst hih
    simpa [List.range', flmILoop] using hbest
  | succ cnt ih =>
    intro i row best hlo hsum hrow hbest
    rw [List.range'_succ]
    simp only [flmILoop]
    have hstep := flm_step junk L lo hi i row best hlo (by omega) hhn hrow hbest _ rfl
    exact ih (i + 1) _ _ (by omega) (by omega) hstep.1 hstep.2

/-- The four extension loops preserve diagonality and bounds, only grow
the block, and produce a non-empty block on a non-empty aligned range. -/
theorem flmExtend_diag {α : Type} [DecidableEq α] (junk : α → Bool) (L : List α)
    (lo hi : Nat) (hlohi : lo ≤ hi) (hhn : hi ≤ L.length) (bi bs : Nat)
    (hblo : lo ≤ bi) (hbhi : bi + bs ≤ hi) (hbz : bs = 0 → bi = lo) :
    (flmExtend L L junk lo hi lo hi (bi, bi, bs)).1 =
        (flmExtend L L junk lo hi lo hi (bi, bi, bs)).2.1 ∧
      lo ≤ (flmExtend L L junk lo hi lo hi (bi, bi, bs)).1 ∧
      (flmExtend L L junk lo hi lo hi (bi, bi, bs)).1 +
          (flmExtend L L junk lo hi lo hi (bi, bi, bs)).2.2 ≤ hi ∧
      (lo < hi → 0 < (flmExtend L L junk lo hi lo hi (bi, bi, bs)).2.2) := by
  unfold flmExtend
  simp only [Nat.min_self]
  set p1 : Nat → Bool := fun s =>
      match L.get? (bi - 1 - s), L.get? (bi - 1 - s) with
      | some x, some y => !junk y && x == y
      | _, _ => false with hp1
  set s1 := extLen p1 0 (bi - lo) with hs1
  have hs1le : s1 ≤ bi - lo := by rw [hs1]; exact extLen_le p1 (bi - lo) 0
  set p2 : Nat → Bool := fun s =>
      match L.get? (bi - s1 + (bs + s1) + s), L.get? (bi - s1 + (bs + s1) + s) with
      | some x, some y => !junk y && x == y
      | _, _ => false with hp2
  set s2 := extLen p2 0 (hi - (bi - s1 + (bs + s1))) with hs2
  have hs2le : s2 ≤ hi - (bi - s1 + (bs + s1)) := by
    rw [hs2]; exact extLen_le p2 _ 0
  set p3 : Nat → Bool := fun s =>
      match L.get? (bi - s1 - 1 - s), L.get? (bi - s1 - 1 - s) with
      | some x, some y => junk y && x == y
      | _, _ => false with hp3
  set s3 := extLen p3 0 (bi - s1 - lo) with hs3
  have hs3le : s3 ≤ bi - s1 - lo := by rw [hs3]; exact extLen_le p3 _ 0
  set p4 : Nat → Bool := fun s =>
      match L.get? (bi - s1 - s3 + (bs + s1 + s2 + s3) + s),
          L.get? (bi - s1 - s3 + (bs + s1 + s2 + s3) + s) with
      | some x, some y => junk y && x == y
      | _, _ => false with hp4
  set s4 := extLen p4 0 (hi - (bi - s1 - s3 + (bs + s1 + s2 + s3))) with hs4
  have hs4le : s4 ≤ hi - (bi - s1 - s3 + (bs + s1 + s2 + s3)) := by
    rw [hs4]; exact extLen_le p4 _ 0
  refine ⟨by trivial, by omega, by omega, fun hlth => ?_⟩
  by_cases hbs0 : bs = 0
  · have hbilo : bi = lo := hbz hbs0
    subst hbilo
    have hs10 : s1 = 0 := by omega
    have hs30 : s3 = 0 := by omega
    obtain ⟨v, hv⟩ : ∃ v, L.get? bi = some v := by
      cases hg : L.get? bi with
      | none =>
        have := List.get?_eq_none.mp hg
        omega
      | some v => exact ⟨v, rfl⟩
    have hidx20 : bi - s1 + (bs + s1) + 0 = bi := by omega
    by_cases hjv : junk v = true
    · -- the forward non-junk extension stalls, the junk extension steops
      have hp2f : p2 0 = false := by
        rw [hp2]
        simp only [hidx20, hv]
        simp [hjv]
      have hs2z : s2 = 0 := by rw [hs2]; exact extLen_zero p2 0 _ hp2f
      have hp40 : p4 0 = true := by
        rw [hp4]
        have hidx40 : bi - s1 - s3 + (bs + s1 + s2 + s3) + 0 = bi := by omega
        simp only [hidx40, hv]
        simp [hjv]
      have hpos := extLen_pos p4 0
        (hi - (bi - s1 - s3 + (bs + s1 + s2 + s3))) (by omega) hp40
      omega
    · -- the forward non-junk extension takes at least one step
      have hjf : junk v = false := by
        cases hb : junk v
        · rfl
        · exact absurd hb hjv
      have hp20 : p2 0 = true := by
        rw [hp2]
        simp only [hidx20, hv]
        simp [hjf]
      have hpos := extLen_pos p2 0 (hi - (bi - s1 + (bs + s1))) (by omega) hp20
      omega
  · omega

end Gpk

namespace Gpk

/-- `find_longest_match` on an aligned range of two equal sequences
returns a diagonal block within the range, non-empty whenever the range
is. -/
theorem flm_diag {α : Type} [DecidableEq α] (junk : α → Bool) (L : List α)
    (lo hi : Nat) (hlohi : lo ≤ hi) (hhn : hi ≤ L.length) :
    (find_longest_match L L junk lo hi lo hi).1 =
        (find_longest_match L L junk lo hi lo hi).2.1 ∧
      lo ≤ (find_longest_match L L junk lo hi lo hi).1 ∧
      (find_longest_match L L junk lo hi lo hi).1 +
          (find_longest_match L L junk lo hi lo hi).2.2 ≤ hi ∧
      (lo < hi → 0 < (find_longest_match L L junk lo hi lo hi).2.2) := by
  have hrow0 : RowInv (presF junk L) lo lo (fun _ => 0) :=
    ⟨fun _ => Nat.zero_le _, fun _ => Nat.zero_le _, fun h => absurd h (by omega)⟩
  have hbest0 : BestInv (presF junk L) lo lo (lo, lo, 0) :=
    ⟨rfl, Nat.le_refl _, by simp, fun t h1 h2 => by omega, fun _ => rfl⟩
  have hloop := flmILoop_inv junk L lo hi hhn (hi - lo) lo (fun _ => 0) (lo, lo, 0)
    (Nat.le_refl _) (by omega) hrow0 hbest0
  obtain ⟨hd, hlo2, hhi2, _, hz2⟩ := hloop
  set b := flmILoop L L junk lo hi (List.range' lo (hi - lo)) (fun _ => 0) (lo, lo, 0)
    with hb
  have hmax : max lo hi = hi := by omega
  rw [hmax] at hhi2
  have hext := flmExtend_diag junk L lo hi hlohi hhn b.1 b.2.2 hlo2 hhi2 hz2
  have hbeq : b = (b.1, b.1, b.2.2) := by
    obtain ⟨b1, b2, b3⟩ := b
    simp only at hd
    rw [hd]
  unfold find_longest_match
  rw [← hb, hbeq]
  exact hext

theorem ivDisj_symm : ∀ {u v : Nat × Nat}, ivDisj u v → ivDisj v u := by
  intro u v h
  unfold ivDisj at h ⊢
  omega

theorem gmbPot_append : ∀ (xs ys : List (Nat × Nat × Nat × Nat)),
    gmbPot (xs ++ ys) = gmbPot xs + gmbPot ys := by
  intro xs ys
  induction xs with
  | nil => simp [gmbPot]
  | cons r xs ih =>
    have h1 : gmbPot ((r :: xs) ++ ys) =
        (r.2.1 - r.1) + (r.2.2.2 - r.2.2.1) + 1 + gmbPot (xs ++ ys) := rfl
    have h2 : gmbPot (r :: xs) =
        (r.2.1 - r.1) + (r.2.2.2 - r.2.2.1) + 1 + gmbPot xs := rfl
    omega

/-- Replacing the head interval of a pairwise-disjoint family by a
pairwise-disjoint family of its sub-intervals keeps disjointness. -/
theorem pairwise_ivDisj_replace (y : Nat × Nat) (olds news : List (Nat × Nat))
    (h : List.Pairwise ivDisj (y :: olds))
    (hsub : ∀ u ∈ news, y.1 ≤ u.1 ∧ u.2 ≤ y.2)
    (hnews : List.Pairwise ivDisj news) :
    List.Pairwise ivDisj (news ++ olds) := by
  obtain ⟨hhead, htail⟩ := List.pairwise_cons.mp h
  rw [List.pairwise_append]
  refine ⟨hnews, htail, fun u hu v hv => ?_⟩
  obtain ⟨hu1, hu2⟩ := hsub u hu
  have hyv := hhead v hv
  unfold ivDisj at hyv ⊢
  omega

/-- The `get_matching_blocks` work-queue loop on equal sequences returns
diagonal, non-empty, in-bounds, pairwise-disjoint blocks covering
`[0, n)`. -/
theorem gmbLoop_spec {α : Type} [DecidableEq α] (junk : α → Bool) (L : List α) :
    ∀ (fuel : Nat) (queue : List (Nat × Nat × Nat × Nat)) (acc : List (Nat × Nat × Nat)),
      gmbPot queue ≤ fuel → GmbInv L.length queue acc →
      (∀ m ∈ gmbLoop L L junk fuel queue acc,
          m.1 = m.2.1 ∧ 0 < m.2.2 ∧ m.1 + m.2.2 ≤ L.length) ∧
        (∀ t, t < L.length → ∃ m ∈ gmbLoop L L junk fuel queue acc,
          m.1 ≤ t ∧ t < m.1 + m.2.2) ∧
        List.Pairwise ivDisj ((gmbLoop L L junk fuel queue acc).map blkIv) := by
  intro fuel
  induction fuel with
  | zero =>
    intro queue acc hpot hinv
    have hq : queue = [] := by
      cases queue with
      | nil => rfl
      | cons r rest => simp [gmbPot] at hpot
    subst hq
    obtain ⟨_, h2, h3, h4⟩ := hinv
    refine ⟨h2, fun t ht => ?_, by simpa using h4⟩
    rcases h3 t ht with h | h
    · exact h
    · obtain ⟨r, hr, _⟩ := h
      simp at hr
  | succ fuel ih =>
    intro queue acc hpot hinv
    cases queue with
    | nil =>
      obtain ⟨_, h2, h3, h4⟩ := hinv
      refine ⟨h2, fun t ht => ?_, by simpa using h4⟩
      rcases h3 t ht with h | h
      · exact h
      · obtain ⟨r, hr, _⟩ := h
        simp at hr
    | cons r rest =>
      obtain ⟨alo, ahi, blo, bhi⟩ := r
      obtain ⟨hq, hacc, hcov, hdisj⟩ := hinv
      obtain ⟨hal, hbh, hlohi, hhin⟩ := hq (alo, ahi, blo, bhi) (by simp)
      simp only at hal hbh hlohi hhin
      subst hal
      subst hbh
      have hpotc : (ahi - alo) + (ahi - alo) + 1 + gmbPot rest ≤ fuel + 1 := by
        simpa [gmbPot] using hpot
      have hflm := flm_diag junk L alo ahi hlohi hhin
      obtain ⟨hmd, hmlo, hmhi, hmk⟩ := hflm
      set m := find_longest_match L L junk alo ahi alo ahi with hm
      simp only [gmbLoop]
      rw [← hm]
      by_cases hk : m.2.2 ≠ 0
      · rw [if_pos hk]
        have hkpos : 0 < m.2.2 := Nat.pos_of_ne_zero hk
        -- the two pushed sub-ranges
        set q2 := if m.1 + m.2.2 < ahi ∧ m.2.1 + m.2.2 < ahi then
          [(m.1 + m.2.2, ahi, m.2.1 + m.2.2, ahi)] else [] with hq2
        set q1 := if alo < m.1 ∧ alo < m.2.1 then [(alo, m.1, alo, m.2.1)] else [] with hq1
        have hq2cases : (m.1 + m.2.2 < ahi ∧
            q2 = [(m.1 + m.2.2, ahi, m.1 + m.2.2, ahi)]) ∨ (ahi ≤ m.1 + m.2.2 ∧ q2 = []) := by
          rw [hq2]
          by_cases hc : m.1 + m.2.2 < ahi ∧ m.2.1 + m.2.2 < ahi
          · left
            rw [if_pos hc, ← hmd]
            exact ⟨hc.1, rfl⟩
          · right
            rw [if_neg hc]
            refine ⟨?_, rfl⟩
            rw [← hmd] at hc
            omega
        have hq1cases : (alo < m.1 ∧ q1 = [(alo, m.1, alo, m.1)]) ∨ (m.1 ≤ alo ∧ q1 = []) := by
          rw [hq1]
          by_cases hc : alo < m.1 ∧ alo < m.2.1
          · left
            rw [if_pos hc, ← hmd]
            exact ⟨hc.1, rfl⟩
          · right
            rw [if_neg hc]
            refine ⟨?_, rfl⟩
            rw [← hmd] at hc
            omega
        -- potential decreases
        have hpot' : gmbPot (q2 ++ q1 ++ rest) ≤ fuel := by
          rw [gmbPot_append, gmbPot_append]
          rcases hq2cases with ⟨hc2, he2⟩ | ⟨hc2, he2⟩ <;>
            rcases hq1cases with ⟨hc1, he1⟩ | ⟨hc1, he1⟩ <;>
              simp only [he1, he2, gmbPot] <;> omega
        -- the new invariant
        have hinv' : GmbInv L.length (q2 ++ q1 ++ rest) ((m.1, m.2.1, m.2.2) :: acc) := by
          refine ⟨?_, ?_, ?_, ?_⟩
          · intro r' hr'
            rcases List.mem_append.mp hr' with hr21 | hrr
            · rcases List.mem_append.mp hr21 with hr2 | hr1
              · rcases hq2cases with ⟨hc2, he2⟩ | ⟨hc2, he2⟩ <;> rw [he2] at hr2
                · simp at hr2
                  subst hr2
                  refine ⟨rfl, rfl, ?_, ?_⟩
                  · show m.1 + m.2.2 ≤ ahi
                    omega
                  · show ahi ≤ L.length
                    omega
                · simp at hr2
              · rcases hq1cases with ⟨hc1, he1⟩ | ⟨hc1, he1⟩ <;> rw [he1] at hr1
                · simp at hr1
                  subst hr1
                  refine ⟨rfl, rfl, ?_, ?_⟩
                  · show alo ≤ m.1
                    omega
                  · show m.1 ≤ L.length
                    omega
                · simp at hr1
            · exact hq r' (List.mem_cons_of_mem _ hrr)
          · intro m' hm'
            rcases List.mem_cons.mp hm' with hme | hma
            · subst hme
              simp only
              exact ⟨hmd, hkpos, by omega⟩
            · exact hacc m' hma
          · intro t ht
            rcases hcov t ht with ⟨mc, hmc, hmct⟩ | ⟨rc, hrc, hrct⟩
            · exact Or.inl ⟨mc, List.mem_cons_of_mem _ hmc, hmct⟩
            · rcases List.mem_cons.mp hrc with hre | hrr
              · subst hre
                simp only at hrct
                rcases Nat.lt_or_ge t m.1 with htm | htm
                · -- covered by q1
                  right
                  rcases hq1cases with ⟨hc1, he1⟩ | ⟨hc1, he1⟩
                  · exact ⟨(alo, m.1, alo, m.1), by simp [he1], by simp; omega⟩
                  · omega
                · rcases Nat.lt_or_ge t (m.1 + m.2.2) with htk | htk
                  · -- covered by the new block
                    exact Or.inl ⟨(m.1, m.2.1, m.2.2), List.mem_cons_self _ _,
                      by simp; omega⟩
                  · -- covered by q2
                    right
                    rcases hq2cases with ⟨hc2, he2⟩ | ⟨hc2, he2⟩
                    · refine ⟨(m.1 + m.2.2, ahi, m.1 + m.2.2, ahi), by simp [he2], ?_⟩
                      simp
                      omega
                    · omega
              · exact Or.inr ⟨rc, List.mem_append.mpr (Or.inr hrr), hrct⟩
          · -- pairwise disjointness
            have hold : List.Pairwise ivDisj
                ((alo, ahi) :: (acc.map blkIv ++ rest.map rngIv)) := by
              have hperm : List.Perm
                  (acc.map blkIv ++ ((alo, ahi, alo, ahi) :: rest).map rngIv)
                  ((alo, ahi) :: (acc.map blkIv ++ rest.map rngIv)) := by
                simp only [List.map_cons]
                exact List.perm_middle
              exact ((hperm.pairwise_iff (fun h => ivDisj_symm h)).mp hdisj)
            have hnews : List.Pairwise ivDisj
                (blkIv (m.1, m.2.1, m.2.2) :: (q2.map rngIv ++ q1.map rngIv)) := by
              rcases hq2cases with ⟨hc2, he2⟩ | ⟨hc2, he2⟩ <;>
                rcases hq1cases with ⟨hc1, he1⟩ | ⟨hc1, he1⟩ <;>
                  simp [he1, he2, blkIv, rngIv, ivDisj]
            have hsub : ∀ u ∈ blkIv (m.1, m.2.1, m.2.2) :: (q2.map rngIv ++ q1.map rngIv),
                alo ≤ u.1 ∧ u.2 ≤ ahi := by
              intro u hu
              rcases List.mem_cons.mp hu with hue | hur
              · subst hue
                simp [blkIv]
                omega
              · rcases List.mem_append.mp hur with hu2 | hu1
                · rcases hq2cases with ⟨hc2, he2⟩ | ⟨hc2, he2⟩ <;> rw [he2] at hu2
                  · simp [rngIv] at hu2 ⊢
                    rw [hu2]
                    simp
                    omega
                  · simp at hu2
                · rcases hq1cases with ⟨hc1, he1⟩ | ⟨hc1, he1⟩ <;> rw [he1] at hu1
                  · simp [rngIv] at hu1 ⊢
                    rw [hu1]
                    simp
                    omega
                  · simp at hu1
            have hrep := pairwise_ivDisj_replace (alo, ahi)
              (acc.map blkIv ++ rest.map rngIv)
              (blkIv (m.1, m.2.1, m.2.2) :: (q2.map rngIv ++ q1.map rngIv))
              hold hsub hnews
            -- rearrange to the actual list shape
            have hperm2 : List.Perm
                ((blkIv (m.1, m.2.1, m.2.2) :: (q2.map rngIv ++ q1.map rngIv)) ++
                  (acc.map blkIv ++ rest.map rngIv))
                (((m.1, m.2.1, m.2.2) :: acc).map blkIv ++ (q2 ++ q1 ++ rest).map rngIv) := by
              simp only [List.map_cons, List.map_append, List.cons_append]
              refine List.Perm.cons _ ?_
              have e1 : (q2.map rngIv ++ q1.map rngIv) ++ (acc.map blkIv ++ rest.map rngIv)
                  = ((q2.map rngIv ++ q1.map rngIv) ++ acc.map blkIv) ++ rest.map rngIv :=
                (List.append_assoc _ _ _).symm
              have e2 : (acc.map blkIv ++ (q2.map rngIv ++ q1.map rngIv)) ++ rest.map rngIv
                  = acc.map blkIv ++ ((q2.map rngIv ++ q1.map rngIv) ++ rest.map rngIv) :=
                List.append_assoc _ _ _
              rw [e1, ← e2]
              exact List.Perm.append_right _ List.perm_append_comm
            exact (hperm2.pairwise_iff (fun h => ivDisj_symm h)).mp hrep
        exact ih (q2 ++ q1 ++ rest) ((m.1, m.2.1, m.2.2) :: acc) hpot' hinv'
      · rw [if_neg hk]
        have hk0 : m.2.2 = 0 := by omega
        have haheq : ahi ≤ alo := by
          by_contra hlt
          have := hmk (by omega)
          omega
        refine ih rest acc (by omega) ⟨fun r' hr' => hq r' (List.mem_cons_of_mem _ hr'),
          hacc, fun t ht => ?_, ?_⟩
        · rcases hcov t ht with h | ⟨rc, hrc, hrct⟩
          · exact Or.inl h
          · rcases List.mem_cons.mp hrc with hre | hrr
            · subst hre
              simp only at hrct
              omega
            · exact Or.inr ⟨rc, hrr, hrct⟩
        · have hsb : List.Sublist (acc.map blkIv ++ rest.map rngIv)
              (acc.map blkIv ++ ((alo, ahi, alo, ahi) :: rest).map rngIv) := by
            simp only [List.map_cons]
            exact List.Sublist.append_left (List.sublist_cons_self _ _) _
          exact hdisj.sublist hsb

/-- `blkInsert` produces a permutation of consing. -/
theorem blkInsert_perm (x : Nat × Nat × Nat) (l : List (Nat × Nat × Nat)) :
    List.Perm (blkInsert x l) (x :: l) := by
  induction l with
  | nil => simp [blkInsert]
  | cons y ys ih =>
    simp only [blkInsert]
    by_cases h : blkLe x y
    · rw [if_pos h]
    · rw [if_neg h]
      exact (ih.cons y).trans (List.Perm.swap x y ys)

/-- `blkSort` permutes its input. -/
theorem blkSort_perm (l : List (Nat × Nat × Nat)) : List.Perm (blkSort l) l := by
  induction l with
  | nil => simp [blkSort]
  | cons x xs ih => exact (blkInsert_perm x (blkSort xs)).trans (ih.cons x)

/-- Arithmetic reading of the lexicographic block order. -/
theorem blkLe_iff (x y : Nat × Nat × Nat) : blkLe x y = true ↔
    (x.1 < y.1 ∨ (x.1 = y.1 ∧ (x.2.1 < y.2.1 ∨ (x.2.1 = y.2.1 ∧ x.2.2 ≤ y.2.2)))) := by
  simp [blkLe]

/-- The block order is total. -/
theorem blkLe_total (x y : Nat × Nat × Nat) : blkLe x y = true ∨ blkLe y x = true := by
  rw [blkLe_iff, blkLe_iff]
  omega

/-- The block order is transitive. -/
theorem blkLe_trans {x y z : Nat × Nat × Nat} (h1 : blkLe x y = true)
    (h2 : blkLe y z = true) : blkLe x z = true := by
  rw [blkLe_iff] at h1 h2 ⊢
  omega

/-- `blkInsert` preserves sortedness. -/
theorem blkInsert_sorted (x : Nat × Nat × Nat) (l : List (Nat × Nat × Nat))
    (hl : List.Pairwise (fun a b => blkLe a b = true) l) :
    List.Pairwise (fun a b => blkLe a b = true) (blkInsert x l) := by
  induction l with
  | nil => simp [blkInsert]
  | cons y ys ih =>
    rcases List.pairwise_cons.mp hl with ⟨hy, hys⟩
    simp only [blkInsert]
    by_cases h : blkLe x y
    · rw [if_pos h]
      refine List.Pairwise.cons ?_ (List.Pairwise.cons hy hys)
      intro z hz
      rcases List.mem_cons.mp hz with rfl | hz
      · exact h
      · exact blkLe_trans h (hy z hz)
    · rw [if_neg h]
      have hyx : blkLe y x = true := by
        rcases blkLe_total x y with h1 | h1
        · exact absurd h1 h
        · exact h1
      refine List.Pairwise.cons ?_ (ih hys)
      intro z hz
      rcases List.mem_cons.mp ((blkInsert_perm x ys).mem_iff.mp hz) with rfl | hz2
      · exact hyx
      · exact hy z hz2

/-- `blkSort` sorts. -/
theorem blkSort_sorted (l : List (Nat × Nat × Nat)) :
    List.Pairwise (fun a b => blkLe a b = true) (blkSort l) := by
  induction l with
  | nil => simp [blkSort]
  | cons x xs ih => exact blkInsert_sorted x _ ih

/-- Sorted, pairwise-disjoint, diagonal, non-empty blocks covering
`[c, n)` form a consecutive partition. -/
theorem consec_of_blocks (n : Nat) :
    ∀ (l : List (Nat × Nat × Nat)) (c : Nat), c ≤ n →
      (∀ m ∈ l, m.1 = m.2.1 ∧ 0 < m.2.2 ∧ m.1 + m.2.2 ≤ n) →
      (∀ t, c ≤ t → t < n → ∃ m ∈ l, m.1 ≤ t ∧ t < m.1 + m.2.2) →
      (∀ m ∈ l, c ≤ m.1) →
      List.Pairwise (fun a b => blkLe a b = true) l →
      List.Pairwise ivDisj (l.map blkIv) →
      Consec n c l := by
  intro l
  induction l with
  | nil =>
    intro c hc _ hcov _ _ _
    show c = n
    by_contra hne
    obtain ⟨m, hm, _⟩ := hcov c (Nat.le_refl c) (by omega)
    simp at hm
  | cons m rest ih =>
    intro c hc hok hcov hge hsort hdisj
    obtain ⟨hmd, hmk, hmhi⟩ := hok m (by simp)
    have hmc : c ≤ m.1 := hge m (by simp)
    rcases List.pairwise_cons.mp hsort with ⟨hsle, hsort2⟩
    rw [List.map_cons] at hdisj
    rcases List.pairwise_cons.mp hdisj with ⟨hdh, hdisj2⟩
    have hm1 : m.1 = c := by
      by_contra hne
      have hcn : c < n := by omega
      obtain ⟨mx, hmx, hmxle, hmxlt⟩ := hcov c (Nat.le_refl c) hcn
      rcases List.mem_cons.mp hmx with rfl | hmxr
      · omega
      · have hle := hsle mx hmxr
        rw [blkLe_iff] at hle
        omega
    have hrge : ∀ mr ∈ rest, c + m.2.2 ≤ mr.1 := by
      intro mr hmr
      obtain ⟨_, hrk, _⟩ := hok mr (List.mem_cons_of_mem _ hmr)
      have hdr := hdh (blkIv mr) (List.mem_map_of_mem blkIv hmr)
      have hlr := hsle mr hmr
      rw [blkLe_iff] at hlr
      unfold ivDisj blkIv at hdr
      simp only at hdr
      omega
    refine ⟨hm1, by omega, hmk, ?_⟩
    refine ih (c + m.2.2) (by omega) (fun mr hmr => hok mr (List.mem_cons_of_mem _ hmr))
      ?_ hrge hsort2 hdisj2
    intro t htc htn
    obtain ⟨mx, hmx, hmxle, hmxlt⟩ := hcov t (by omega) htn
    rcases List.mem_cons.mp hmx with rfl | hmxr
    · omega
    · exact ⟨mx, hmxr, hmxle, hmxlt⟩

/-- Merging a consecutive partition after an aligned seed block yields a
consecutive chain. -/
theorem mergeAdjacent_chainSeg (n : Nat) :
    ∀ (l : List (Nat × Nat × Nat)) (i1 k1 : Nat),
      Consec n (i1 + k1) l → ChainSeg n i1 (mergeAdjacent (i1, i1, k1) l) := by
  intro l
  induction l with
  | nil =>
    intro i1 k1 hcons
    have hcn : i1 + k1 = n := hcons
    simp only [mergeAdjacent]
    by_cases hk : k1 ≠ 0
    · rw [if_pos hk]
      exact ⟨rfl, rfl, hcn⟩
    · rw [if_neg hk]
      show i1 = n
      simp at hk
      omega
  | cons m rest ih =>
    intro i1 k1 hcons
    obtain ⟨mi, mj, mk⟩ := m
    obtain ⟨h1, h2, hkpos, hrest⟩ := hcons
    have h1c : mi = i1 + k1 := h1
    have h2c : mj = i1 + k1 := h2
    simp only [mergeAdjacent]
    rw [if_pos ⟨by omega, by omega⟩]
    refine ih i1 (k1 + mk) ?_
    have he : i1 + (k1 + mk) = i1 + k1 + mk := by omega
    rw [he]
    exact hrest

/-- Chains concatenate. -/
theorem chainSeg_append (e2 : Nat) :
    ∀ (l1 : List (Nat × Nat × Nat)) (c e : Nat), ChainSeg e c l1 →
      ∀ l2, ChainSeg e2 e l2 → ChainSeg e2 c (l1 ++ l2) := by
  intro l1
  induction l1 with
  | nil =>
    intro c e h1 l2 h2
    have hce : c = e := h1
    subst hce
    simpa using h2
  | cons m rest ih =>
    intro c e h1 l2 h2
    obtain ⟨ha, hb, hrest⟩ := h1
    exact ⟨ha, hb, ih _ _ hrest l2 h2⟩

/-- The terminal sentinel is a chain from `n` to `n`. -/
theorem chainSeg_sentinel (n : Nat) : ChainSeg n n [(n, n, 0)] := ⟨rfl, rfl, rfl⟩

/-- On a consecutive chain the opcode fold only ever emits `equal`
opcodes. -/
theorem opcodesLoop_all_equal (e : Nat) :
    ∀ (l : List (Nat × Nat × Nat)) (c : Nat), ChainSeg e c l →
      ∀ op ∈ opcodesLoop c c l, op.tag = OpTag.equal := by
  intro l
  induction l with
  | nil =>
    intro c _ op hop
    simp [opcodesLoop] at hop
  | cons m rest ih =>
    intro c hch op hop
    obtain ⟨mi, mj, mk⟩ := m
    obtain ⟨h1, h2, hrest⟩ := hch
    have h1c : mi = c := h1
    have h2c : mj = c := h2
    have hrest2 : ChainSeg e (c + mk) rest := hrest
    rw [h1c, h2c] at hop
    simp only [opcodesLoop] at hop
    rw [if_neg (by omega : ¬(c < c ∧ c < c)), if_neg (by omega : ¬c < c),
      if_neg (by omega : ¬c < c), List.nil_append] at hop
    rcases List.mem_append.mp hop with h | h
    · by_cases hmk : mk ≠ 0
      · rw [if_pos hmk] at h
        simp at h
        rw [h]
      · rw [if_neg hmk] at h
        simp at h
    · exact ih (c + mk) hrest2 op h

attribute [irreducible] Consec ChainSeg

/-- On equal sequences, the sorted output of the work-queue loop is a
consecutive diagonal partition of `[0, length)`. -/
theorem gmb_sorted_consec {α : Type} [DecidableEq α] (junk : α → Bool) (L : List α) :
    Consec L.length 0 (blkSort (gmbLoop L L junk (L.length + L.length + 1)
      [(0, L.length, 0, L.length)] [])) := by
  have hpot : gmbPot [(0, L.length, 0, L.length)] ≤ L.length + L.length + 1 := by
    simp [gmbPot]
  have hinv : GmbInv L.length [(0, L.length, 0, L.length)] [] := by
    refine ⟨?_, ?_, ?_, ?_⟩
    · intro r hr
      simp at hr
      subst hr
      exact ⟨rfl, rfl, Nat.zero_le _, Nat.le_refl _⟩
    · intro mx hmx
      simp at hmx
    · intro t ht
      exact Or.inr ⟨(0, L.length, 0, L.length), by simp, by simp; omega⟩
    · simp
  obtain ⟨hb, hcov, hdisj⟩ := gmbLoop_spec junk L (L.length + L.length + 1)
    [(0, L.length, 0, L.length)] [] hpot hinv
  have hperm := blkSort_perm (gmbLoop L L junk (L.length + L.length + 1)
    [(0, L.length, 0, L.length)] [])
  refine consec_of_blocks L.length _ 0 (Nat.zero_le _)
    (fun m hm => hb m (hperm.mem_iff.mp hm)) ?_ (fun m _ => Nat.zero_le _)
    (blkSort_sorted _) ?_
  · intro t _ htn
    obtain ⟨m, hm, hmt⟩ := hcov t htn
    exact ⟨m, hperm.mem_iff.mpr hm, hmt⟩
  · exact ((hperm.map blkIv).pairwise_iff (fun h => ivDisj_symm h)).mpr hdisj

/-- On two equal sequences every emitted opcode is an `equal` opcode. -/
theorem get_opcodes_self_all_equal {α : Type} [DecidableEq α] (junk : α → Bool) (L : List α) :
    ∀ op ∈ get_opcodes L L junk, op.tag = OpTag.equal := by
  have hch1 := mergeAdjacent_chainSeg L.length
    (blkSort (gmbLoop L L junk (L.length + L.length + 1)
      [(0, L.length, 0, L.length)] [])) 0 0 (gmb_sorted_consec junk L)
  have hch : ChainSeg L.length 0 (get_matching_blocks L L junk) :=
    chainSeg_append L.length _ 0 L.length hch1 _ (chainSeg_sentinel L.length)
  exact opcodesLoop_all_equal L.length (get_matching_blocks L L junk) 0 hch

/-- A flat map over a list is empty when every image is. -/
theorem flatMap_eq_nil_of_forall {β γ : Type} (f : β → List γ) :
    ∀ l : List β, (∀ x ∈ l, f x = []) → l.flatMap f = [] := by
  intro l
  induction l with
  | nil => intro _; rfl
  | cons x xs ih =>
    intro h
    have h1 : f x = [] := h x (List.mem_cons_self x xs)
    have h2 : xs.flatMap f = [] := ih (fun y hy => h y (List.mem_cons_of_mem _ hy))
    simp [h1, h2]

/-- Diffing a line list against itself yields no added lines. -/
theorem diffAdded_self (L : List String) : diffAdded L L = [] := by
  simp only [diffAdded]
  apply flatMap_eq_nil_of_forall
  intro op hop
  have htag := get_opcodes_self_all_equal lineIsJunk L op hop
  rw [if_neg]
  rw [htag]
  intro hcon
  rcases hcon with h | h <;> exact OpTag.noConfusion h

/-- C9: the incremental error filter is idempotent — for every output
string `x`, `Check._diff_errors(x, x)` raises no `CheckFailedError`
(`diff_errors x x = none`), including when `x` contains blank or
whitespace-only lines, which the alignment treats as ignorable junk. -/
theorem C9_filter_idempotent (x : String) : diff_errors x x = none := by
  by_cases hx : x = ""
  · subst hx
    rfl
  · simp only [diff_errors, if_neg hx]
    rw [diffAdded_self]
    simp

end Gpk
